import Mathlib

/-!
Verification of the core tree algorithms of `resolve_paralogs`
(`yang_and_smith/prune_paralogs_mo.py` and `yang_and_smith/cut_deep_paralogs.py`).

The mutable, parent-linked `phylo3` trees of the source are embedded as an
inductive rose tree `PTree`; a node of the live tree is addressed by the list
of child indices leading to it from the root (`TPath`).  In-place mutation of
the Python tree becomes a function from trees to trees.  Branch lengths
(Python floats that are only ever added and order-compared by the source,
never divided or rounded) are embedded as `Int`.
Python `while` loops are embedded with explicit fuel, returning `Except` so
that fuel exhaustion (an infinite loop in the source) and uncaught Python
exceptions (`ValueError`, `IndexError`/`AttributeError`) are observable.
-/

/-- A rooted tree as produced by `newick3.parse`: a `phylo3.Node` with a tip
label (empty string for unlabeled internal nodes), a branch length, and an
ordered list of children.  A node is a tip iff it has no children. -/
inductive PTree where
  | mk (label : String) (length : Int) (children : List PTree)


/-- The `label` attribute of a `phylo3.Node`. -/
def PTree.label : PTree → String
  | .mk l _ _ => l

/-- The `length` attribute of a `phylo3.Node` (branch length above the node). -/
def PTree.length : PTree → Int
  | .mk _ ln _ => ln

/-- The `children` attribute of a `phylo3.Node`. -/
def PTree.children : PTree → List PTree
  | .mk _ _ cs => cs

/-- `phylo3.Node.istip`: a node is a tip iff it has no children. -/
def PTree.istip (t : PTree) : Bool := t.children.isEmpty

mutual

/-- Decidable structural equality on trees. -/
def PTree.decEq : (a b : PTree) → Decidable (a = b)
  | .mk l1 n1 cs1, .mk l2 n2 cs2 =>
    if hl : l1 = l2 then
      if hn : n1 = n2 then
        match PTree.decEqList cs1 cs2 with
        | isTrue hc => isTrue (by rw [hl, hn, hc])
        | isFalse hc => isFalse (fun h => hc (by injection h))
      else isFalse (fun h => hn (by injection h))
    else isFalse (fun h => hl (by injection h))

/-- Decidable structural equality on forests. -/
def PTree.decEqList : (as bs : List PTree) → Decidable (as = bs)
  | [], [] => isTrue rfl
  | [], _ :: _ => isFalse (by simp)
  | _ :: _, [] => isFalse (by simp)
  | a :: as, b :: bs =>
    match PTree.decEq a b with
    | isTrue h1 =>
      match PTree.decEqList as bs with
      | isTrue h2 => isTrue (by rw [h1, h2])
      | isFalse h2 => isFalse (fun h => h2 (by injection h))
    | isFalse h1 => isFalse (fun h => h1 (by injection h))

end

instance : DecidableEq PTree := PTree.decEq

instance {e a : Type} [DecidableEq e] [DecidableEq a] : DecidableEq (Except e a) :=
  fun x y =>
    match x, y with
    | .ok v, .ok w =>
      if h : v = w then isTrue (by rw [h]) else isFalse (fun hc => h (by injection hc))
    | .error v, .error w =>
      if h : v = w then isTrue (by rw [h]) else isFalse (fun hc => h (by injection hc))
    | .ok _, .error _ => isFalse (fun hc => by injection hc)
    | .error _, .ok _ => isFalse (fun hc => by injection hc)

/-- `get_name` (`prune_paralogs_mo.py`): the taxon name of a tip label is the
first field after splitting on a dot, i.e. the characters before the first
dot. -/
def get_name (label : String) : String :=
  String.mk (label.data.takeWhile (fun c => ! (c == '.')))

mutual

/-- `get_front_labels` via `phylo3.Node.leaves`: the labels of all tips in the
subtree, in left-to-right order (a childless node is itself a tip). -/
def get_front_labels : PTree → List String
  | .mk l _ [] => [l]
  | .mk _ _ (c :: cs) => get_front_labels_list (c :: cs)

/-- Tip labels of a forest, in order. -/
def get_front_labels_list : List PTree → List String
  | [] => []
  | c :: cs => get_front_labels c ++ get_front_labels_list cs

end

/-- `get_front_names`: taxon names of all tips of the subtree (may repeat). -/
def get_front_names (t : PTree) : List String := (get_front_labels t).map get_name

/-- `count_taxa` (`cut_deep_paralogs.py`) and `len(set(get_front_names(...)))`
(`prune_paralogs_mo.py`): number of distinct taxon names among the tips. -/
def count_taxa (t : PTree) : Nat := (get_front_names t).dedup.length

/-- Number of tips of the subtree (`len(node.leaves())`). -/
def countLeaves (t : PTree) : Nat := (get_front_labels t).length

/-- `get_front_outgroup_names(node, outgroups)`: front names that are in the
outgroups list. -/
def get_front_outgroup_names (t : PTree) (outgroups : List String) : List String :=
  (get_front_names t).filter (fun n => decide (n ∈ outgroups))

/-- A node address: the list of child indices leading from the root. -/
abbrev TPath := List Nat

/-- The node of `t` addressed by `p`, if the path is valid. -/
def nodeAt? : PTree → TPath → Option PTree
  | t, [] => some t
  | t, i :: p =>
    match t.children[i]? with
    | some c => nodeAt? c p
    | none => none

mutual

/-- Addresses of all nodes of the tree in pre-order (node before children,
children in list order) — the order of `phylo3.Node.iternodes(order=0)`. -/
def preorderPaths : PTree → List TPath
  | .mk _ _ cs => [] :: preorderPathsAux 0 cs

/-- Addresses of the nodes of a forest whose first tree has index `i`. -/
def preorderPathsAux : Nat → List PTree → List TPath
  | _, [] => []
  | i, c :: cs => (preorderPaths c).map (fun p => i :: p) ++ preorderPathsAux (i + 1) cs

end

/-- Apply `f` to the node of `t` addressed by `p` (identity on a dead path). -/
def modifyAt : PTree → TPath → (PTree → PTree) → PTree
  | t, [], f => f t
  | .mk l ln cs, i :: p, f =>
    match cs[i]? with
    | some c => .mk l ln (cs.set i (modifyAt c p f))
    | none => .mk l ln cs

/-- `parent.remove_child(child)` at the root of a subtree: drop child `i`. -/
def eraseChild (t : PTree) (i : Nat) : PTree := .mk t.label t.length (t.children.eraseIdx i)

/-- Detach the subtree addressed by `p` from its parent (`node.prune()` in
`cut_deep_paralogs.py`, after which the parent may be left as a kink). -/
def removeSubtreeAt : PTree → TPath → PTree
  | t, [] => t
  | t, [i] => eraseChild t i
  | .mk l ln cs, i :: p =>
    match cs[i]? with
    | some c => .mk l ln (cs.set i (removeSubtreeAt c p))
    | none => .mk l ln cs

/-- The reroot target chosen by `remove_kink` when the node is the current
root with exactly two children (`prune_paralogs_mo.py` lines 134-139): the
second child if the first is a tip, else the first child.  The source comment
assumes "the other child is not tip". -/
def rerootChoice (c0 c1 : PTree) : PTree := if c0.istip then c1 else c0

/-- `remove_kink(node, curroot)` (`prune_paralogs_mo.py` lines 126-149) on the
node addressed by `p`.  For a non-root node the single remaining child is
merged upward: the parent drops the kink from its child list and appends the
child carrying length `kink.length + child.length` (`remove_child` followed by
`add_child`, so the merged child ends up at the END of the parent's child
list).  For the root with exactly two children the tree is first rerooted onto
`rerootChoice`; composing `phylo3.reroot` (modelled from the spec, §4.1) with
the splice yields: the chosen child becomes the root and the other child,
carrying length `chosen.length + other.length`, is appended to its children.
Any call that would raise in Python (root with `nchildren ≠ 2`, kink without
children, dead path) returns `none`. -/
def remove_kink : PTree → TPath → Option PTree
  | t, [] =>
    match t.children with
    | [c0, c1] =>
      let target := rerootChoice c0 c1
      let other := if c0.istip then c0 else c1
      some (.mk target.label target.length
        (target.children ++ [.mk other.label (target.length + other.length) other.children]))
    | _ => none
  | .mk l ln cs, [i] =>
    match cs[i]? with
    | some kink =>
      match kink.children[0]? with
      | some c =>
        some (.mk l ln (cs.eraseIdx i ++ [.mk c.label (kink.length + c.length) c.children]))
      | none => none
    | none => none
  | .mk l ln cs, i :: p =>
    match cs[i]? with
    | some c =>
      match remove_kink c p with
      | some c' => some (.mk l ln (cs.set i c'))
      | none => none
    | none => none

/-- Errors of the embedded MO engine: `valueError` models the
`ValueError('More than one clade with outgroup sequences!')` raise,
`indexError` models an uncaught Python `IndexError`/`AttributeError`
(malformed tree), and `fuelOut` marks a loop that did not finish within the
supplied fuel (including the infinite re-scan loop of the source). -/
inductive MOErr where
  | valueError
  | indexError
  | fuelOut
deriving DecidableEq

/-- Whether the taxon-name sets of two subtrees intersect
(`len(name_set0.intersection(name_set1)) > 0`). -/
def namesIntersect (a b : PTree) : Bool :=
  (get_front_names a).any (fun x => (get_front_names b).contains x)

/-- Index (0 or 1) of the clade removed from an intersecting pair:
`if len(name_set0) > len(name_set1)` the second clade (index 1) is removed,
otherwise — including exact ties — the first (index 0). -/
def removedIndex (c0 c1 : PTree) : Nat :=
  if count_taxa c1 < count_taxa c0 then 1 else 0

/-- The root-level duplication pruning for an ingroup pair `(i, j)` of root
children (`prune_paralogs_mo.py` lines 242-281): if the two name sets
intersect, remove the smaller clade (ties remove child `i`) from the root's
child list; no kink removal is performed here. -/
def pairPrune (t : PTree) (i j : Nat) (ci cj : PTree) : PTree :=
  if namesIntersect ci cj then
    if removedIndex ci cj = 1 then eraseChild t j else eraseChild t i
  else t

/-- The root-duplication check of `prune_paralogs_from_rerooted_homotree`
(lines 233-283): count outgroup tips of the first three root children; the
first pair with zero outgroup tips in both is pruned via `pairPrune`; if no
such pair exists the source raises `ValueError`. -/
def rootPhase (t : PTree) (outgroups : List String) : Except MOErr PTree :=
  match t.children with
  | c0 :: c1 :: c2 :: _ =>
    let out0 := (get_front_outgroup_names c0 outgroups).length
    let out1 := (get_front_outgroup_names c1 outgroups).length
    let out2 := (get_front_outgroup_names c2 outgroups).length
    if out0 = 0 ∧ out1 = 0 then .ok (pairPrune t 0 1 c0 c1)
    else if out1 = 0 ∧ out2 = 0 then .ok (pairPrune t 1 2 c1 c2)
    else if out0 = 0 ∧ out2 = 0 then .ok (pairPrune t 0 2 c0 c2)
    else .error .valueError
  | _ => .error .indexError

/-- One pass of the pre-order rescanning `for` loop (lines 287-297): walk the
given node addresses; skip tips and the root; at the first internal node whose
first two children have intersecting name sets, stop with its address.  A
non-root internal node with a single child would raise `IndexError` at
`node.children[1]` in the source. -/
def moScanGo (t : PTree) : List TPath → Except MOErr (Option TPath)
  | [] => .ok none
  | p :: ps =>
    match nodeAt? t p with
    | some n =>
      match n.children with
      | [] => moScanGo t ps
      | [_] => .error .indexError
      | c0 :: c1 :: _ =>
        if namesIntersect c0 c1 then .ok (some p) else moScanGo t ps
    | none => moScanGo t ps

/-- A full pre-order scan of the tree, root excluded. -/
def moScan (t : PTree) : Except MOErr (Option TPath) :=
  moScanGo t ((preorderPaths t).drop 1)

/-- The mutation performed once a pre-order scan found an intersecting sibling
pair at `p` (lines 298-304): remove the smaller of the first two children
(`removedIndex`) and collapse the resulting kink with `remove_kink` (no
re-rooting, since `p` is never the root). -/
def moStep (t : PTree) (p : TPath) : Except MOErr PTree :=
  match nodeAt? t p with
  | some n =>
    match n.children with
    | c0 :: c1 :: _ =>
      let t' := modifyAt t p (fun m => eraseChild m (removedIndex c0 c1))
      match remove_kink t' p with
      | some t'' => .ok t''
      | none => .error .indexError
    | _ => .error .indexError
  | none => .error .indexError

/-- The `while` loop of `prune_paralogs_from_rerooted_homotree` (lines
286-305): while duplicate taxon names remain, rescan in pre-order and apply
`moStep` at the first intersecting sibling pair.  A scan that finds no pair
leaves the tree unchanged, so the source spins forever; here it burns fuel. -/
def moLoop : Nat → PTree → Except MOErr PTree
  | 0, _ => .error .fuelOut
  | fuel + 1, t =>
    if (get_front_names t).Nodup then .ok t
    else
      match moScan t with
      | .error e => .error e
      | .ok none => moLoop fuel t
      | .ok (some p) =>
        match moStep t p with
        | .ok t' => moLoop fuel t'
        | .error e => .error e

/-- `prune_paralogs_from_rerooted_homotree(root, outgroups)` (lines 217-307):
return the tree unchanged if its front names are already unique; otherwise run
the root-duplication phase and then the iterative pruning loop.  All mutation
is in place in the source and the root object is never rebound, so the value
returned here is (the final state of) the very tree object that was passed
in. -/
def prune_paralogs_from_rerooted_homotree (fuel : Nat) (t : PTree)
    (outgroups : List String) : Except MOErr PTree :=
  if (get_front_names t).Nodup then .ok t
  else
    match rootPhase t outgroups with
    | .ok t' => moLoop fuel t'
    | .error e => .error e

/-- The ortho-tree write decision of `main` (`prune_paralogs_mo.py` lines
595-609).  In the source, `ortho = prune_paralogs_from_rerooted_homotree(
curroot, outgroups)` mutates the rerooted tree in place and returns the same
object, so the subsequent test `len(set(get_front_names(curroot))) >=
args.minimum_taxa` reads the PRUNED tree: `curroot` and `ortho` alias.
Returns `some true` when the pruned tree is written, `some false` when it is
recorded as below minimum, `none` when pruning raised. -/
def moWriteDecision (fuel : Nat) (t : PTree) (outgroups : List String)
    (minimumTaxa : Nat) : Option Bool :=
  match prune_paralogs_from_rerooted_homotree fuel t outgroups with
  | .ok ortho => some (decide (minimumTaxa ≤ count_taxa ortho))
  | .error _ => none

/-- Modelled from the spec: inner loop of `phylo3.reroot`, not under `src/`
(spec §4.1: "reversing the parent/child relationship along the path from old
root to `new_root_target`, with branch lengths preserved by reinterpretation").
`above` is the already-flipped tree hanging from the former parent side; `c`
is the node currently being made an ancestor of the new root; `p` addresses
the target inside `c`. -/
def rerootAux (above c : PTree) : TPath → Option PTree
  | [] => some (.mk c.label c.length (c.children ++ [above]))
  | i :: p =>
    match c.children[i]? with
    | some g =>
      rerootAux (.mk c.label g.length (c.children.eraseIdx i ++ [above])) g p
    | none => none

/-- Modelled from the spec: `phylo3.reroot(root, newroot)`, not under `src/`
(spec §4.1).  The node addressed by `p` becomes the new root: each edge on the
path from the old root flips direction keeping its length, and the flipped
remainder of the tree is appended to the target's children.  Rerooting at the
current root is a no-op. -/
def reroot (t : PTree) : TPath → Option PTree
  | [] => some t
  | i :: p =>
    match t.children[i]? with
    | some c => rerootAux (.mk t.label c.length (t.children.eraseIdx i)) c p
    | none => none

/-- `get_back_names(node, root)`: names of the tips of `root` NOT under
`node`, computed — as in the source — from the set difference of label sets,
so duplicate labels collapse before name extraction. -/
def get_back_names (n root : PTree) : List String :=
  (((get_front_labels root).dedup).filter
    (fun lab => ! (get_front_labels n).contains lab)).map get_name

/-- The monophyly test of the rerooting loop (`prune_paralogs_mo.py` lines
187-209): counting front/back names inside and outside the outgroup list, a
node qualifies if front is purely outgroup and back purely non-outgroup, both
non-empty, or the mirror image. -/
def qualifiesB (root n : PTree) (outgroups : List String) : Bool :=
  let fo := (get_front_names n).countP (fun x => decide (x ∈ outgroups))
  let fi := (get_front_names n).countP (fun x => ! decide (x ∈ outgroups))
  let bo := (get_back_names n root).countP (fun x => decide (x ∈ outgroups))
  let bi := (get_back_names n root).countP (fun x => ! decide (x ∈ outgroups))
  (decide (fi = 0) && decide (0 < fo) && decide (0 < bi) && decide (bo = 0)) ||
  (decide (0 < fi) && decide (fo = 0) && decide (bi = 0) && decide (0 < bo))

/-- Address of the first node, in pre-order with the root excluded, that
passes the monophyly test. -/
def findQualifyPath (t : PTree) (outgroups : List String) : Option TPath :=
  ((preorderPaths t).drop 1).find? (fun p =>
    match nodeAt? t p with
    | some n => qualifiesB t n outgroups
    | none => false)

/-- The spec's wording of the monophyly test (§4.4 rerooting): the node's
front tip set is purely outgroup and non-empty while the back is purely
ingroup (non-outgroup) and non-empty, or the mirror image.  Stated from the
spec to be compared with the code's count-based `qualifiesB`. -/
def qualifiesSpec (root n : PTree) (outgroups : List String) : Prop :=
  (get_front_names n ≠ [] ∧ (∀ x ∈ get_front_names n, x ∈ outgroups) ∧
    get_back_names n root ≠ [] ∧ (∀ x ∈ get_back_names n root, x ∉ outgroups)) ∨
  (get_front_names n ≠ [] ∧ (∀ x ∈ get_front_names n, x ∉ outgroups) ∧
    get_back_names n root ≠ [] ∧ (∀ x ∈ get_back_names n root, x ∈ outgroups))

instance (root n : PTree) (outgroups : List String) :
    Decidable (qualifiesSpec root n outgroups) := by
  unfold qualifiesSpec
  infer_instance

/-- `reroot_with_monophyletic_outgroups(root, outgroups)` (lines 152-214).
With a single outgroup tip, reroot at that tip's parent.  Otherwise scan all
non-root nodes; the parent of the first node passing `qualifiesB` becomes the
new root target; with no qualifying node return `none` (non-monophyletic
outgroup). -/
def reroot_with_monophyletic_outgroups (t : PTree) (outgroups : List String) :
    Option PTree :=
  match (get_front_labels t).filter (fun lab => decide (get_name lab ∈ outgroups)) with
  | [lab] =>
    match (preorderPaths t).find? (fun p =>
      match nodeAt? t p with
      | some n => n.istip && n.label == lab
      | none => false) with
    | some p => reroot t p.dropLast
    | none => none
  | _ =>
    match findQualifyPath t outgroups with
    | some p => reroot t p.dropLast
    | none => none

/-- Decimal digits of a natural number (fuel-driven so that it reduces). -/
def natStrAux : Nat → Nat → List Char
  | 0, _ => []
  | fuel + 1, n =>
    if n < 10 then [Char.ofNat (48 + n)]
    else natStrAux fuel (n / 10) ++ [Char.ofNat (48 + n % 10)]

/-- Deterministic decimal rendering of a branch length, standing in for
Python float formatting inside `newick3.tostring` output and report
strings. -/
def ratStr (q : Int) : String :=
  match q with
  | .ofNat n => String.mk (natStrAux (n + 1) n)
  | .negSucc n => "-" ++ String.mk (natStrAux (n + 2) (n + 1))

mutual

/-- Modelled from the spec: `newick3.tostring`, not under `src/` (spec §6: "a
tree serializer ... producing the same notation from a Node subtree").  Used
only to key the discarded-subtree mapping, as in the source. -/
def newickStr : PTree → String
  | .mk l ln [] => l ++ ":" ++ ratStr ln
  | .mk l ln (c :: cs) => "(" ++ newickJoin (c :: cs) ++ ")" ++ l ++ ":" ++ ratStr ln

/-- Comma-separated serialization of a forest. -/
def newickJoin : List PTree → String
  | [] => ""
  | [c] => newickStr c
  | c :: c' :: cs => newickStr c ++ "," ++ newickJoin (c' :: cs)

end

/-- Python `dict` assignment `d[k] = v` on an insertion-ordered association
list: overwrite in place if the key exists, else append. -/
def insertKV (m : List (String × String)) (k v : String) : List (String × String) :=
  if m.any (fun kv => kv.1 == k) then
    m.map (fun kv => if kv.1 == k then (k, v) else kv)
  else m ++ [(k, v)]

/-- Errors of the embedded branch-cutting engine. -/
inductive CutErr where
  | indexError
  | fuelOut
deriving DecidableEq

/-- What the scanning `for` loop of `cut_long_internal_branches` (lines
52-63) does first: the first non-root, non-tip node in pre-order that either
is a kink (`nchildren == 1`) or has `node.length > cutoff`. -/
inductive CutAction where
  | kinkAt (p : TPath)
  | longAt (p : TPath)
deriving DecidableEq

/-- Walk the node addresses: skip tips and dead paths; a single-child node
triggers kink removal; otherwise a node with `length > cutoff` (strictly)
triggers cutting. -/
def cutScanGo (t : PTree) (cutoff : Int) : List TPath → Option CutAction
  | [] => none
  | p :: ps =>
    match nodeAt? t p with
    | some n =>
      match n.children with
      | [] => cutScanGo t cutoff ps
      | [_] => some (.kinkAt p)
      | _ :: _ :: _ =>
        if cutoff < n.length then some (.longAt p) else cutScanGo t cutoff ps
    | none => cutScanGo t cutoff ps

/-- One full scan of the tree in `iternodes` order, root excluded. -/
def cutScan (t : PTree) (cutoff : Int) : Option CutAction :=
  cutScanGo t cutoff ((preorderPaths t).drop 1)

/-- The discard reason recorded for a split child with fewer than 4 taxa
(lines 77-80 and 88-91 — the source interpolates `child0_node.length` for
BOTH children, reproduced faithfully). -/
def reasonChild (nodeLen cutoff c0Len : Int) (which : String) : String :=
  "Node length (" ++ ratStr nodeLen ++ ") > cutoff (" ++ ratStr cutoff ++
  "); both children not tips; combined length of child0_node branch (" ++
  ratStr c0Len ++ ") and child1_node branch (" ++ ratStr c0Len ++
  ") > cutoff; " ++ which ++ " has fewer than 4 taxa"

/-- The keep-or-discard decision applied to each child subtree of a split
long branch (lines 74-94): keep the child as an output subtree iff it has at
least 4 unique taxa — the threshold is the hard-coded constant 4, not a
parameter — else record it in the discard map under its serialization. -/
def keepChild (child : PTree) (acc : List PTree × List (String × String))
    (reason : String) : List PTree × List (String × String) :=
  if 4 ≤ count_taxa child then (acc.1 ++ [child], acc.2)
  else (acc.1, insertKV acc.2 (newickStr child) reason)

/-- The final residue decision (lines 109-113): after the loop exits, the
remaining tree is kept as an output subtree iff it has at least 4 unique
taxa, else recorded in the discard map. -/
def finishResidue (residue : PTree) (subs : List PTree)
    (disc : List (String × String)) : List PTree × List (String × String) :=
  if 4 ≤ count_taxa residue then (subs ++ [residue], disc)
  else (subs, insertKV disc (newickStr residue)
    "After cutting, remaining tree has fewer than 4 taxa")

/-- The `while going` loop of `cut_long_internal_branches` (lines 50-107).
Returns the residue tree together with the accumulated kept subtrees and
discard map.  A kink is collapsed and the scan restarts; a long branch is
split (both children internal and their length sum strictly over the cutoff)
or kept whole, the node is pruned off, and — only if more than 2 leaves
remain — the resulting kink is collapsed and the scan restarts; otherwise the
loop stops (`going` stays `False` in the source). -/
def cutIter : Nat → PTree → Int → List PTree → List (String × String) →
    Except CutErr (PTree × List PTree × List (String × String))
  | 0, _, _, _, _ => .error .fuelOut
  | fuel + 1, t, cutoff, subs, disc =>
    match cutScan t cutoff with
    | none => .ok (t, subs, disc)
    | some (.kinkAt p) =>
      match remove_kink t p with
      | some t' => cutIter fuel t' cutoff subs disc
      | none => .error .indexError
    | some (.longAt p) =>
      match nodeAt? t p with
      | some n =>
        match n.children with
        | c0 :: c1 :: _ =>
          let acc :=
            if ¬ c0.istip ∧ ¬ c1.istip ∧ cutoff < c0.length + c1.length then
              keepChild c1
                (keepChild c0 (subs, disc) (reasonChild n.length cutoff c0.length "child0_node"))
                (reasonChild n.length cutoff c0.length "child1_node")
            else (subs ++ [n], disc)
          let t' := removeSubtreeAt t p
          if 2 < countLeaves t' then
            match remove_kink t' p.dropLast with
            | some t'' => cutIter fuel t'' cutoff acc.1 acc.2
            | none => .error .indexError
          else .ok (t', acc.1, acc.2)
        | _ => .error .indexError
      | none => .error .indexError

/-- `cut_long_internal_branches(curroot, internal_branch_length_cutoff)`
(lines 35-115).  Note the source signature: the cutoff is a parameter but the
minimum-taxa threshold is NOT — every keep/discard decision uses the
hard-coded constant 4. -/
def cut_long_internal_branches (fuel : Nat) (t : PTree) (cutoff : Int) :
    Except CutErr (List PTree × List (String × String)) :=
  match cutIter fuel t cutoff [] [] with
  | .ok (residue, subs, disc) => .ok (finishResidue residue subs disc)
  | .error e => .error e

/-- Every node of the subtree is a tip or has exactly two children — the shape
`prune_paralogs_from_rerooted_homotree`'s rescanning loop assumes for nodes
below the (possibly trifurcating) root. -/
def binB : PTree → Bool
  | .mk _ _ [] => true
  | .mk _ _ [a, b] => binB a && binB b
  | .mk _ _ _ => false

/-- No taxon name occurs in two distinct members of the forest. -/
def pairwiseDisjB : List PTree → Bool
  | [] => true
  | c :: cs => cs.all (fun d => ! namesIntersect c d) && pairwiseDisjB cs

/-- A valid rerooted homotree at the state scanned by the `while` loop of
`prune_paralogs_from_rerooted_homotree`: every node below the root is a tip or
binary, and no taxon name spans two distinct root children (as guaranteed by a
monophyletic-outgroup rerooting followed by the root-duplication phase, which
confines every remaining duplication to a single root child). -/
def validLoopB (t : PTree) : Bool := t.children.all binB && pairwiseDisjB t.children

/-- Shorthand for a tip node. -/
def tipN (l : String) (ln : Int) : PTree := .mk l ln []

/-- Rerooted tree with outgroup `O`: children `O.1`, `(A.1,B.1)`, `(A.2,C.1)`.
The ingroup pair ties at 2 taxa each and shares `A`, so the root phase removes
`(A.1,B.1)` and the unique taxon `B` with it: 4 unique taxa before pruning,
3 after. -/
def tMO : PTree := .mk "" 0 [tipN "O.1" 1,
  .mk "" 1 [tipN "A.1" 1, tipN "B.1" 1],
  .mk "" 1 [tipN "A.2" 1, tipN "C.1" 1]]

/-- The tree `tMO` after MO pruning. -/
def tMOresult : PTree := .mk "" 0 [tipN "O.1" 1, .mk "" 1 [tipN "A.2" 1, tipN "C.1" 1]]

/-- A tree whose root children hold more than one clade with outgroup tips. -/
def tMulti : PTree := .mk "" 0 [tipN "O.1" 1, tipN "O.2" 1,
  .mk "" 1 [tipN "A.1" 1, tipN "A.2" 1]]

/-- The 4-taxon child of the long branch of `tCut`. -/
def cutChild0 : PTree := .mk "" 1 [.mk "" 1 [tipN "A.1" 1, tipN "B.1" 1],
  .mk "" 1 [tipN "C.1" 1, tipN "D.1" 1]]

/-- The 3-taxon child of the long branch of `tCut`. -/
def cutChild1 : PTree := .mk "" 1 [tipN "E.1" 1, .mk "" 1 [tipN "F.1" 1, tipN "G.1" 1]]

/-- A tree with one long internal branch (length 2) whose two internal
children have 4 and 3 unique taxa and child-length sum 2. -/
def tCut : PTree := .mk "" 0 [.mk "N" 2 [cutChild0, cutChild1], tipN "Z.1" 1, tipN "Y.1" 1]

/-- A kink-free tree whose only internal non-root branch has length exactly 1. -/
def tTie : PTree := .mk "" 0 [.mk "" 1 [tipN "A.1" 1, tipN "B.1" 1], tipN "C.1" 1]

/-- Like `tTie` but with the internal branch strictly over the cutoff 1. -/
def tLong : PTree := .mk "" 0 [.mk "" 2 [tipN "A.1" 1, tipN "B.1" 1], tipN "C.1" 1]

/-- A tree with a kink `X` (single child `A.1`) as first root child. -/
def tKink : PTree := .mk "" 0 [.mk "X" 2 [tipN "A.1" 3], tipN "B.1" 1]

/-- A tree with a two-tip monophyletic outgroup clade and two ingroup tips. -/
def tReroot : PTree := .mk "" 0 [.mk "" 1 [tipN "O.1" 1, tipN "O.2" 1],
  tipN "A.1" 1, tipN "B.1" 1]

/-- A valid rerooted homotree with one duplicated ingroup taxon `A`. -/
def tValid : PTree := .mk "" 0 [tipN "O.1" 1,
  .mk "" 1 [.mk "" 1 [tipN "A.1" 1, tipN "A.2" 1], tipN "B.1" 1]]

/-- A root whose two children are both tips. -/
def tBothTips : PTree := .mk "" 0 [tipN "A.1" 1, tipN "B.2" 2]

/-- No node below the root has exactly one child (the tree is kink-free, as
every tree freshly parsed from newick is). -/
def kinkFreeBelowRootB (t : PTree) : Bool :=
  ((preorderPaths t).drop 1).all (fun p =>
    match nodeAt? t p with
    | some n => n.children.length != 1
    | none => true)

/-- Every internal node below the root has branch length at most `cutoff`. -/
def internalLengthsLeB (t : PTree) (cutoff : Int) : Bool :=
  ((preorderPaths t).drop 1).all (fun p =>
    match nodeAt? t p with
    | some n => if n.children.isEmpty then true else decide (n.length ≤ cutoff)
    | none => true)

/-- Induction principle for `PTree` giving the hypothesis on every child. -/
theorem PTree.inductionOn (P : PTree → Prop)
    (h : ∀ l ln cs, (∀ c ∈ cs, P c) → P (PTree.mk l ln cs)) : ∀ t, P t := by
  intro t
  refine @PTree.rec P (fun cs => ∀ c ∈ cs, P c) ?_ ?_ ?_ t
  · intro l ln cs ih
    exact h l ln cs ih
  · intro c hc
    exact absurd hc (List.not_mem_nil c)
  · intro hd tl ph qh c hc
    rcases List.mem_cons.mp hc with h1 | h2
    · exact h1 ▸ ph
    · exact qh c h2

theorem get_front_labels_list_eq (cs : List PTree) :
    get_front_labels_list cs = (cs.map get_front_labels).flatten := by
  induction cs with
  | nil => simp [get_front_labels_list]
  | cons c cs ih => simp [get_front_labels_list, ih]

theorem get_front_labels_mk (l : String) (ln : Int) (cs : List PTree) :
    get_front_labels (.mk l ln cs) =
      if cs.isEmpty then [l] else (cs.map get_front_labels).flatten := by
  cases cs with
  | nil => simp [get_front_labels]
  | cons c cs => simp [get_front_labels, get_front_labels_list_eq]

theorem get_front_labels_ne_nil (t : PTree) : get_front_labels t ≠ [] := by
  induction t using PTree.inductionOn with
  | _ l ln cs ih =>
    cases cs with
    | nil => simp [get_front_labels]
    | cons c cs =>
      have hc := ih c (List.mem_cons_self c cs)
      simp only [get_front_labels_mk, List.isEmpty_cons, if_neg Bool.false_ne_true]
      intro hfl
      rcases List.flatten_eq_nil_iff.mp hfl with h
      exact hc (h (get_front_labels c) (List.mem_map_of_mem get_front_labels
        (List.mem_cons_self c cs)))

theorem countLeaves_pos (t : PTree) : 0 < countLeaves t := by
  have h := get_front_labels_ne_nil t
  unfold countLeaves
  exact List.length_pos.mpr h

theorem get_front_names_ne_nil (t : PTree) : get_front_names t ≠ [] := by
  unfold get_front_names
  simp only [ne_eq, List.map_eq_nil_iff]
  exact get_front_labels_ne_nil t

theorem nodeAt?_cons (t : PTree) (i : Nat) (p : TPath) :
    nodeAt? t (i :: p) = (t.children[i]?).bind (fun c => nodeAt? c p) := by
  cases t with
  | mk l ln cs =>
    cases hc : cs[i]? with
    | none => simp [nodeAt?, PTree.children, hc]
    | some c => simp [nodeAt?, PTree.children, hc]

theorem mem_preorderPathsAux (k : Nat) (cs : List PTree) (p : TPath)
    (h : p ∈ preorderPathsAux k cs) :
    ∃ i q c, p = (k + i) :: q ∧ cs[i]? = some c ∧ q ∈ preorderPaths c := by
  induction cs generalizing k with
  | nil => simp [preorderPathsAux] at h
  | cons c cs ih =>
    simp only [preorderPathsAux, List.mem_append, List.mem_map] at h
    rcases h with ⟨q, hq, rfl⟩ | h2
    · exact ⟨0, q, c, by simp, by simp, hq⟩
    · rcases ih (k + 1) h2 with ⟨i, q, c', rfl, hc', hq⟩
      exact ⟨i + 1, q, c', by ring_nf, by simpa using hc', hq⟩

theorem mem_preorderPathsAux_of (k : Nat) (cs : List PTree) (i : Nat) (c : PTree)
    (q : TPath) (hc : cs[i]? = some c) (hq : q ∈ preorderPaths c) :
    (k + i) :: q ∈ preorderPathsAux k cs := by
  induction cs generalizing k i with
  | nil => simp at hc
  | cons c' cs ih =>
    cases i with
    | zero =>
      simp only [List.getElem?_cons_zero, Option.some_inj] at hc
      subst hc
      simp only [preorderPathsAux, List.mem_append, List.mem_map]
      exact Or.inl ⟨q, hq, by simp⟩
    | succ j =>
      simp only [List.getElem?_cons_succ] at hc
      have := ih (k + 1) j hc
      simp only [preorderPathsAux, List.mem_append]
      right
      have harith : k + 1 + j = k + (j + 1) := by ring
      exact harith ▸ this

theorem mem_preorderPaths_of_nodeAt? (t : PTree) (p : TPath) (n : PTree)
    (h : nodeAt? t p = some n) : p ∈ preorderPaths t := by
  induction p generalizing t with
  | nil =>
    cases t with
    | mk l ln cs => simp [preorderPaths]
  | cons i q ih =>
    cases t with
    | mk l ln cs =>
      rw [nodeAt?_cons] at h
      cases hc : (PTree.mk l ln cs).children[i]? with
      | none => rw [hc] at h; simp at h
      | some c =>
        rw [hc] at h
        simp only [Option.some_bind] at h
        have hq := ih c h
        simp only [preorderPaths, List.mem_cons]
        right
        have h0 := mem_preorderPathsAux_of 0 cs i c q (by simpa [PTree.children] using hc) hq
        rw [Nat.zero_add] at h0
        exact h0

theorem drop1_preorderPaths (t : PTree) (p : TPath)
    (h : p ∈ (preorderPaths t).drop 1) :
    ∃ i q c, p = i :: q ∧ t.children[i]? = some c ∧ q ∈ preorderPaths c := by
  cases t with
  | mk l ln cs =>
    simp only [preorderPaths, List.drop_succ_cons, List.drop_zero] at h
    rcases mem_preorderPathsAux 0 cs p h with ⟨i, q, c, rfl, hc, hq⟩
    exact ⟨i, q, c, by simp, by simpa [PTree.children] using hc, hq⟩

theorem mem_drop1_preorderPaths (t : PTree) (i : Nat) (q : TPath) (c : PTree)
    (hc : t.children[i]? = some c) (hq : q ∈ preorderPaths c) :
    i :: q ∈ (preorderPaths t).drop 1 := by
  cases t with
  | mk l ln cs =>
    simp only [preorderPaths, List.drop_succ_cons, List.drop_zero]
    have h0 := mem_preorderPathsAux_of 0 cs i c q (by simpa [PTree.children] using hc) hq
    rw [Nat.zero_add] at h0
    exact h0

theorem list_getElem?_set_self {α : Type} (cs : List α) (i : Nat) (c x : α)
    (hc : cs[i]? = some c) : (cs.set i x)[i]? = some x := by
  induction cs generalizing i with
  | nil => simp at hc
  | cons a as ih =>
    cases i with
    | zero => simp
    | succ j =>
      simp only [List.getElem?_cons_succ] at hc
      simpa using ih j hc

theorem modifyAt_cons (l : String) (ln : Int) (cs : List PTree) (i : Nat)
    (p : TPath) (f : PTree → PTree) (c : PTree) (hc : cs[i]? = some c) :
    modifyAt (.mk l ln cs) (i :: p) f = .mk l ln (cs.set i (modifyAt c p f)) := by
  simp [modifyAt, hc]

theorem nodeAt?_modifyAt_self (t : PTree) (p : TPath) (n : PTree) (f : PTree → PTree)
    (h : nodeAt? t p = some n) : nodeAt? (modifyAt t p f) p = some (f n) := by
  induction p generalizing t with
  | nil =>
    simp only [nodeAt?] at h ⊢
    simp [modifyAt, Option.some_inj.mp h]
  | cons i q ih =>
    cases t with
    | mk l ln cs =>
      rw [nodeAt?_cons] at h
      cases hc : (PTree.mk l ln cs).children[i]? with
      | none => rw [hc] at h; simp at h
      | some c =>
        rw [hc] at h
        simp only [Option.some_bind] at h
        simp only [PTree.children] at hc
        rw [modifyAt_cons l ln cs i q f c hc, nodeAt?_cons]
        simp only [PTree.children]
        rw [list_getElem?_set_self cs i c _ hc]
        simpa using ih c h

theorem sum_map_set (cs : List PTree) (i : Nat) (c x : PTree) (g : PTree → Nat)
    (hc : cs[i]? = some c) :
    ((cs.set i x).map g).sum + g c = (cs.map g).sum + g x := by
  induction cs generalizing i with
  | nil => simp at hc
  | cons a as ih =>
    cases i with
    | zero =>
      simp only [List.getElem?_cons_zero, Option.some_inj] at hc
      subst hc
      simp only [List.set_cons_zero, List.map_cons, List.sum_cons]
      omega
    | succ j =>
      simp only [List.getElem?_cons_succ] at hc
      have := ih j hc
      simp only [List.set_cons_succ, List.map_cons, List.sum_cons]
      omega

theorem sum_map_eraseIdx (cs : List PTree) (i : Nat) (c : PTree) (g : PTree → Nat)
    (hc : cs[i]? = some c) :
    ((cs.eraseIdx i).map g).sum + g c = (cs.map g).sum := by
  induction cs generalizing i with
  | nil => simp at hc
  | cons a as ih =>
    cases i with
    | zero =>
      simp only [List.getElem?_cons_zero, Option.some_inj] at hc
      subst hc
      simp only [List.eraseIdx_cons_zero, List.map_cons, List.sum_cons]
      omega
    | succ j =>
      simp only [List.getElem?_cons_succ] at hc
      have := ih j hc
      simp only [List.eraseIdx_cons_succ, List.map_cons, List.sum_cons]
      omega

theorem countLeaves_mk (l : String) (ln : Int) (cs : List PTree) :
    countLeaves (.mk l ln cs) = if cs.isEmpty then 1 else (cs.map countLeaves).sum := by
  unfold countLeaves
  rw [get_front_labels_mk]
  cases cs with
  | nil => simp
  | cons c cs' =>
    simp only [List.isEmpty_cons, if_neg Bool.false_ne_true]
    rw [List.length_flatten, List.map_map]
    rfl

theorem mem_of_mem_eraseIdx' {α : Type} (cs : List α) (i : Nat) (x : α)
    (h : x ∈ cs.eraseIdx i) : x ∈ cs := by
  induction cs generalizing i with
  | nil => simp [List.eraseIdx] at h
  | cons a as ih =>
    cases i with
    | zero =>
      simp only [List.eraseIdx] at h
      exact List.mem_cons_of_mem a h
    | succ j =>
      simp only [List.eraseIdx] at h
      rcases List.mem_cons.mp h with rfl | h2
      · exact List.mem_cons_self x as
      · exact List.mem_cons_of_mem a (ih j h2)

theorem mem_getElem? {α : Type} (cs : List α) (x : α) (h : x ∈ cs) :
    ∃ i : Nat, cs[i]? = some x := by
  induction cs with
  | nil => simp at h
  | cons a as ih =>
    rcases List.mem_cons.mp h with h1 | h2
    · refine ⟨0, ?_⟩
      rw [h1, List.getElem?_cons_zero]
    · rcases ih h2 with ⟨i, hi⟩
      refine ⟨i + 1, ?_⟩
      rw [List.getElem?_cons_succ]
      exact hi

theorem binB_shape (t : PTree) (h : binB t = true) :
    t.children = [] ∨ ∃ a b, t.children = [a, b] ∧ binB a = true ∧ binB b = true := by
  cases t with
  | mk l ln cs =>
    cases cs with
    | nil => left; rfl
    | cons a cs' =>
      cases cs' with
      | nil => simp [binB] at h
      | cons b cs'' =>
        cases cs'' with
        | nil =>
          right
          refine ⟨a, b, rfl, ?_, ?_⟩ <;> simp [binB, Bool.and_eq_true] at h <;> tauto
        | cons d cs''' => simp [binB] at h

theorem binB_mk_any (l1 l2 : String) (ln1 ln2 : Int) (cs : List PTree) :
    binB (.mk l1 ln1 cs) = binB (.mk l2 ln2 cs) := by
  cases cs with
  | nil => simp [binB]
  | cons a cs' =>
    cases cs' with
    | nil => simp [binB]
    | cons b cs'' =>
      cases cs'' with
      | nil => simp [binB]
      | cons d cs''' => simp [binB]

theorem binB_nodeAt (t : PTree) (q : TPath) (n : PTree) (hb : binB t = true)
    (h : nodeAt? t q = some n) : binB n = true := by
  induction q generalizing t with
  | nil => simp only [nodeAt?, Option.some_inj] at h; exact h ▸ hb
  | cons i q ih =>
    rw [nodeAt?_cons] at h
    cases hc : t.children[i]? with
    | none => rw [hc] at h; simp at h
    | some c =>
      rw [hc] at h
      simp only [Option.some_bind] at h
      rcases binB_shape t hb with hnil | ⟨a, b, hab, hba, hbb⟩
      · rw [hnil] at hc; simp at hc
      · rw [hab] at hc
        have : c = a ∨ c = b := by
          cases i with
          | zero => simp at hc; tauto
          | succ j =>
            cases j with
            | zero => simp at hc; tauto
            | succ k => simp at hc
        rcases this with rfl | rfl
        · exact ih c hba h
        · exact ih c hbb h

theorem get_front_names_mk (l : String) (ln : Int) (cs : List PTree) :
    get_front_names (.mk l ln cs) =
      if cs.isEmpty then [get_name l] else (cs.map get_front_names).flatten := by
  unfold get_front_names
  rw [get_front_labels_mk]
  cases cs with
  | nil => simp
  | cons c cs' =>
    simp only [List.isEmpty_cons, if_neg Bool.false_ne_true]
    rw [List.map_flatten, List.map_map]
    rfl

theorem namesIntersect_iff (a b : PTree) :
    namesIntersect a b = true ↔
      ∃ x, x ∈ get_front_names a ∧ x ∈ get_front_names b := by
  unfold namesIntersect
  rw [List.any_eq_true]
  constructor
  · rintro ⟨x, hx, hc⟩
    exact ⟨x, hx, by simpa using hc⟩
  · rintro ⟨x, hx, hb⟩
    exact ⟨x, hx, by simpa using hb⟩

theorem namesIntersect_symm_false (a b : PTree) (h : namesIntersect a b = false) :
    namesIntersect b a = false := by
  by_contra hne
  have := namesIntersect_iff b a
  rcases this.mp (by revert hne; cases namesIntersect b a <;> simp) with ⟨x, hx1, hx2⟩
  have : namesIntersect a b = true := (namesIntersect_iff a b).mpr ⟨x, hx2, hx1⟩
  rw [this] at h
  cases h

theorem namesIntersect_false_of_subset (e c m : PTree)
    (h : namesIntersect e c = false)
    (hm : ∀ x ∈ get_front_names m, x ∈ get_front_names c) :
    namesIntersect e m = false := by
  by_contra hne
  rcases (namesIntersect_iff e m).mp
    (by revert hne; cases namesIntersect e m <;> simp) with ⟨x, hx1, hx2⟩
  have : namesIntersect e c = true := (namesIntersect_iff e c).mpr ⟨x, hx1, hm x hx2⟩
  rw [this] at h
  cases h

theorem pairwiseDisjB_cons (c : PTree) (cs : List PTree) :
    pairwiseDisjB (c :: cs) = true ↔
      (∀ d ∈ cs, namesIntersect c d = false) ∧ pairwiseDisjB cs = true := by
  simp [pairwiseDisjB, List.all_eq_true, Bool.and_eq_true]

theorem pairB_append_single (cs : List PTree) (m : PTree)
    (h : pairwiseDisjB cs = true) (hd : ∀ d ∈ cs, namesIntersect d m = false) :
    pairwiseDisjB (cs ++ [m]) = true := by
  induction cs with
  | nil => simp [pairwiseDisjB]
  | cons c cs ih =>
    rw [pairwiseDisjB_cons] at h
    rw [List.cons_append, pairwiseDisjB_cons]
    constructor
    · intro d hdm
      rcases List.mem_append.mp hdm with h1 | h2
      · exact h.1 d h1
      · have : d = m := by simpa using h2
        subst this
        exact namesIntersect_symm_false d c
          (namesIntersect_symm_false c d
            (hd c (List.mem_cons_self c cs)))
    · exact ih h.2 (fun d hdm => hd d (List.mem_cons_of_mem c hdm))

theorem pairB_set (cs : List PTree) (j : Nat) (c d : PTree)
    (hc : cs[j]? = some c)
    (hsub : ∀ x ∈ get_front_names d, x ∈ get_front_names c)
    (h : pairwiseDisjB cs = true) : pairwiseDisjB (cs.set j d) = true := by
  induction cs generalizing j with
  | nil => simp at hc
  | cons a as ih =>
    cases j with
    | zero =>
      simp only [List.getElem?_cons_zero, Option.some_inj] at hc
      subst hc
      rw [List.set_cons_zero, pairwiseDisjB_cons]
      rw [pairwiseDisjB_cons] at h
      exact ⟨fun e he => namesIntersect_symm_false e d
        (namesIntersect_false_of_subset e a d
          (namesIntersect_symm_false a e (h.1 e he)) hsub), h.2⟩
    | succ i =>
      simp only [List.getElem?_cons_succ] at hc
      rw [List.set_cons_succ, pairwiseDisjB_cons]
      rw [pairwiseDisjB_cons] at h
      refine ⟨?_, ih i hc h.2⟩
      intro e he
      rcases List.mem_or_eq_of_mem_set he with h1 | h2
      · exact h.1 e h1
      · subst h2
        exact namesIntersect_false_of_subset a c e (h.1 c (by
          have := List.getElem?_mem hc
          exact this)) hsub

theorem pairB_eraseAppend (cs : List PTree) (j : Nat) (c m : PTree)
    (hc : cs[j]? = some c)
    (hsub : ∀ x ∈ get_front_names m, x ∈ get_front_names c)
    (h : pairwiseDisjB cs = true) : pairwiseDisjB (cs.eraseIdx j ++ [m]) = true := by
  induction cs generalizing j with
  | nil => simp at hc
  | cons a as ih =>
    cases j with
    | zero =>
      simp only [List.getElem?_cons_zero, Option.some_inj] at hc
      subst hc
      rw [List.eraseIdx_cons_zero]
      rw [pairwiseDisjB_cons] at h
      exact pairB_append_single as m h.2
        (fun d hd => namesIntersect_false_of_subset d a m
          (namesIntersect_symm_false a d (h.1 d hd)) hsub)
    | succ i =>
      simp only [List.getElem?_cons_succ] at hc
      rw [List.eraseIdx_cons_succ, List.cons_append, pairwiseDisjB_cons]
      rw [pairwiseDisjB_cons] at h
      refine ⟨?_, ih i hc h.2⟩
      intro d hd
      rcases List.mem_append.mp hd with h1 | h2
      · exact h.1 d (mem_of_mem_eraseIdx' as i d h1)
      · have : d = m := by simpa using h2
        subst this
        exact namesIntersect_false_of_subset a c d
          (h.1 c (List.getElem?_mem hc)) hsub

theorem get_front_labels_congr (t u : PTree) (hl : t.label = u.label)
    (hc : t.children = u.children) : get_front_labels t = get_front_labels u := by
  cases t with
  | mk l1 n1 cs1 =>
    cases u with
    | mk l2 n2 cs2 =>
      simp only [PTree.label, PTree.children] at hl hc
      subst hl; subst hc
      rw [get_front_labels_mk, get_front_labels_mk]

theorem binB_congr (t u : PTree) (hc : t.children = u.children) : binB t = binB u := by
  cases t with
  | mk l1 n1 cs1 =>
    cases u with
    | mk l2 n2 cs2 =>
      simp only [PTree.children] at hc
      subst hc
      exact binB_mk_any l1 l2 n1 n2 cs1

theorem names_subset_of_labels_subset (d c : PTree)
    (h : ∀ x ∈ get_front_labels d, x ∈ get_front_labels c) :
    ∀ x ∈ get_front_names d, x ∈ get_front_names c := by
  intro x hx
  unfold get_front_names at hx ⊢
  rcases List.mem_map.mp hx with ⟨lab, hlab, rfl⟩
  exact List.mem_map_of_mem get_name (h lab hlab)

theorem set_eraseIdx_same {α : Type} (cs : List α) (j : Nat) (x : α) :
    (cs.set j x).eraseIdx j = cs.eraseIdx j := by
  induction cs generalizing j with
  | nil => simp
  | cons a as ih =>
    cases j with
    | zero => simp
    | succ i => simp [ih i]

theorem mem_flatten_map_set (cs : List PTree) (j : Nat) (c x : PTree)
    (g : PTree → List String) (hc : cs[j]? = some c)
    (hx : ∀ s ∈ g x, s ∈ g c) :
    ∀ s ∈ ((cs.set j x).map g).flatten, s ∈ (cs.map g).flatten := by
  induction cs generalizing j with
  | nil => simp at hc
  | cons a as ih =>
    cases j with
    | zero =>
      simp only [List.getElem?_cons_zero, Option.some_inj] at hc
      subst hc
      intro s hs
      simp only [List.set_cons_zero, List.map_cons, List.flatten_cons,
        List.mem_append] at hs ⊢
      rcases hs with h1 | h2
      · exact Or.inl (hx s h1)
      · exact Or.inr h2
    | succ i =>
      simp only [List.getElem?_cons_succ] at hc
      intro s hs
      simp only [List.set_cons_succ, List.map_cons, List.flatten_cons,
        List.mem_append] at hs ⊢
      rcases hs with h1 | h2
      · exact Or.inl h1
      · exact Or.inr (ih i hc s h2)

theorem nodeAt?_child (t : PTree) (j : Nat) (q : TPath) (n cj : PTree)
    (hn : nodeAt? t (j :: q) = some n) (hc : t.children[j]? = some cj) :
    nodeAt? cj q = some n := by
  rw [nodeAt?_cons, hc] at hn
  simpa using hn

theorem validLoopB_iff (t : PTree) :
    validLoopB t = true ↔
      (∀ c ∈ t.children, binB c = true) ∧ pairwiseDisjB t.children = true := by
  simp [validLoopB, List.all_eq_true, Bool.and_eq_true]

theorem remove_kink_one (l : String) (ln : Int) (cs : List PTree) (i : Nat)
    (kink c : PTree) (hk : cs[i]? = some kink) (hc : kink.children[0]? = some c) :
    remove_kink (.mk l ln cs) [i] =
      some (.mk l ln (cs.eraseIdx i ++
        [.mk c.label (kink.length + c.length) c.children])) := by
  simp [remove_kink, hk, hc]

theorem remove_kink_cons (l : String) (ln : Int) (cs : List PTree) (j k : Nat)
    (q : TPath) (c : PTree) (hc : cs[j]? = some c) :
    remove_kink (.mk l ln cs) (j :: k :: q) =
      (remove_kink c (k :: q)).map (fun c' => .mk l ln (cs.set j c')) := by
  simp only [remove_kink, hc]
  cases remove_kink c (k :: q) <;> simp

theorem eraseChild_length (t : PTree) (i : Nat) : (eraseChild t i).length = t.length := by
  cases t; rfl

theorem eraseChild_children (t : PTree) (i : Nat) :
    (eraseChild t i).children = t.children.eraseIdx i := by
  cases t; rfl

theorem labels_pair (l : String) (ln : Int) (u v : PTree) :
    get_front_labels (.mk l ln [u, v]) = get_front_labels u ++ get_front_labels v := by
  rw [get_front_labels_mk]
  simp

theorem countLeaves_pair (l : String) (ln : Int) (u v : PTree) :
    countLeaves (.mk l ln [u, v]) = countLeaves u + countLeaves v := by
  rw [countLeaves_mk]
  simp [countLeaves]

theorem binB_pair (l : String) (ln : Int) (u v : PTree) :
    binB (.mk l ln [u, v]) = (binB u && binB v) := by
  simp [binB]

theorem labels_of_children_pair (n a b : PTree) (hch : n.children = [a, b]) :
    get_front_labels n = get_front_labels a ++ get_front_labels b := by
  cases n with
  | mk l ln cs =>
    simp only [PTree.children] at hch
    subst hch
    exact labels_pair l ln a b

theorem countLeaves_of_children_pair (n a b : PTree) (hch : n.children = [a, b]) :
    countLeaves n = countLeaves a + countLeaves b := by
  unfold countLeaves
  rw [labels_of_children_pair n a b hch, List.length_append]

theorem binB_children_pair (n a b : PTree) (hch : n.children = [a, b])
    (hbn : binB n = true) : binB a = true ∧ binB b = true := by
  rcases binB_shape n hbn with hnil | ⟨a', b', hab, hba, hbb⟩
  · rw [hch] at hnil; cases hnil
  · rw [hch] at hab
    injection hab with h1 h2
    injection h2 with h2 h3
    subst h1; subst h2
    exact ⟨hba, hbb⟩

theorem kink_child_facts (n a b : PTree) (hch : n.children = [a, b])
    (hbn : binB n = true) :
    ∃ surv, (eraseChild n (removedIndex a b)).children = [surv] ∧ binB surv = true ∧
      (∀ x ∈ get_front_labels surv, x ∈ get_front_labels n) ∧
      countLeaves surv < countLeaves n := by
  have hpair := binB_children_pair n a b hch hbn
  have hlab := labels_of_children_pair n a b hch
  have hcnt := countLeaves_of_children_pair n a b hch
  rw [eraseChild_children, hch]
  unfold removedIndex
  by_cases hcmp : count_taxa b < count_taxa a
  · refine ⟨a, by simp [hcmp], hpair.1, ?_, ?_⟩
    · intro x hx
      rw [hlab]
      exact List.mem_append_left _ hx
    · have := countLeaves_pos b
      omega
  · refine ⟨b, by simp [hcmp], hpair.2, ?_, ?_⟩
    · intro x hx
      rw [hlab]
      exact List.mem_append_right _ hx
    · have := countLeaves_pos a
      omega

theorem moStepCore : ∀ (q : TPath) (j : Nat) (c n a b : PTree),
    binB c = true →
    nodeAt? c (j :: q) = some n →
    n.children = [a, b] →
    ∃ d, remove_kink
        (modifyAt c (j :: q) (fun m => eraseChild m (removedIndex a b))) (j :: q) = some d
      ∧ binB d = true
      ∧ (∀ x ∈ get_front_labels d, x ∈ get_front_labels c)
      ∧ countLeaves d < countLeaves c := by
  intro q
  induction q with
  | nil =>
    intro j c n a b hb hn hch
    rcases binB_shape c hb with hnil | ⟨x, y, hxy, hbx, hby⟩
    · rw [nodeAt?_cons, hnil] at hn
      simp at hn
    · cases c with
      | mk cl cln cs =>
        simp only [PTree.children] at hxy
        subst hxy
        match j with
        | 0 =>
          have hx0 : ([x, y] : List PTree)[0]? = some x := rfl
          have hnx : n = x := by
            rw [nodeAt?_cons] at hn
            simp only [PTree.children, hx0, Option.some_bind, nodeAt?] at hn
            exact (Option.some_inj.mp hn).symm
          subst hnx
          rcases kink_child_facts n a b hch hbx with ⟨surv, hsc, hbs, hls, hcs⟩
          rw [modifyAt_cons cl cln [n, y] 0 [] _ n hx0]
          simp only [List.set_cons_zero, modifyAt]
          have hk0 : ([eraseChild n (removedIndex a b), y] : List PTree)[0]? =
            some (eraseChild n (removedIndex a b)) := rfl
          have hc0 : (eraseChild n (removedIndex a b)).children[0]? = some surv := by
            rw [hsc]; rfl
          rw [remove_kink_one cl cln _ 0 _ surv hk0 hc0]
          refine ⟨_, rfl, ?_, ?_, ?_⟩
          · simp only [List.eraseIdx_cons_zero, List.singleton_append]
            rw [binB_pair, Bool.and_eq_true]
            constructor
            · exact hby
            · have : binB (PTree.mk surv.label ((eraseChild n (removedIndex a b)).length + surv.length) surv.children) = binB surv := by
                apply binB_congr
                rfl
              rw [this]
              exact hbs
          · simp only [List.eraseIdx_cons_zero, List.singleton_append]
            intro s hs
            rw [labels_pair] at hs
            have hmerge : get_front_labels (PTree.mk surv.label ((eraseChild n (removedIndex a b)).length + surv.length) surv.children) = get_front_labels surv := by
              apply get_front_labels_congr <;> rfl
            rw [hmerge] at hs
            rw [labels_pair]
            rcases List.mem_append.mp hs with h1 | h2
            · exact List.mem_append_right _ h1
            · exact List.mem_append_left _ (hls s h2)
          · simp only [List.eraseIdx_cons_zero, List.singleton_append]
            rw [countLeaves_pair, countLeaves_pair]
            have hmergec : countLeaves (PTree.mk surv.label ((eraseChild n (removedIndex a b)).length + surv.length) surv.children) = countLeaves surv := by
              unfold countLeaves
              congr 1
              apply get_front_labels_congr <;> rfl
            rw [hmergec]
            omega
        | 1 =>
          have hx1 : ([x, y] : List PTree)[1]? = some y := rfl
          have hny : n = y := by
            rw [nodeAt?_cons] at hn
            simp only [PTree.children, hx1, Option.some_bind, nodeAt?] at hn
            exact (Option.some_inj.mp hn).symm
          subst hny
          rcases kink_child_facts n a b hch hby with ⟨surv, hsc, hbs, hls, hcs⟩
          rw [modifyAt_cons cl cln [x, n] 1 [] _ n hx1]
          simp only [List.set_cons_succ, List.set_cons_zero, modifyAt]
          have hk1 : ([x, eraseChild n (removedIndex a b)] : List PTree)[1]? =
            some (eraseChild n (removedIndex a b)) := rfl
          have hc0 : (eraseChild n (removedIndex a b)).children[0]? = some surv := by
            rw [hsc]; rfl
          rw [remove_kink_one cl cln _ 1 _ surv hk1 hc0]
          refine ⟨_, rfl, ?_, ?_, ?_⟩
          · simp only [List.eraseIdx_cons_succ, List.eraseIdx_cons_zero,
              List.singleton_append]
            rw [binB_pair, Bool.and_eq_true]
            refine ⟨hbx, ?_⟩
            have : binB (PTree.mk surv.label ((eraseChild n (removedIndex a b)).length + surv.length) surv.children) = binB surv := by
              apply binB_congr; rfl
            rw [this]
            exact hbs
          · simp only [List.eraseIdx_cons_succ, List.eraseIdx_cons_zero,
              List.singleton_append]
            intro s hs
            rw [labels_pair] at hs
            have hmerge : get_front_labels (PTree.mk surv.label ((eraseChild n (removedIndex a b)).length + surv.length) surv.children) = get_front_labels surv := by
              apply get_front_labels_congr <;> rfl
            rw [hmerge] at hs
            rw [labels_pair]
            rcases List.mem_append.mp hs with h1 | h2
            · exact List.mem_append_left _ h1
            · exact List.mem_append_right _ (hls s h2)
          · simp only [List.eraseIdx_cons_succ, List.eraseIdx_cons_zero,
              List.singleton_append]
            rw [countLeaves_pair, countLeaves_pair]
            have hmergec : countLeaves (PTree.mk surv.label ((eraseChild n (removedIndex a b)).length + surv.length) surv.children) = countLeaves surv := by
              unfold countLeaves
              congr 1
              apply get_front_labels_congr <;> rfl
            rw [hmergec]
            omega
        | (k + 2) =>
          rw [nodeAt?_cons] at hn
          have : ([x, y] : List PTree)[k + 2]? = none := rfl
          simp only [PTree.children, this] at hn
          cases hn
  | cons k q' ih =>
    intro j c n a b hb hn hch
    rcases binB_shape c hb with hnil | ⟨x, y, hxy, hbx, hby⟩
    · rw [nodeAt?_cons, hnil] at hn
      simp at hn
    · cases c with
      | mk cl cln cs =>
        simp only [PTree.children] at hxy
        subst hxy
        match j with
        | 0 =>
          have hx0 : ([x, y] : List PTree)[0]? = some x := rfl
          have hnx : nodeAt? x (k :: q') = some n :=
            nodeAt?_child _ 0 (k :: q') n x hn hx0
          rcases ih k x n a b hbx hnx hch with ⟨d', hrk, hbd, hld, hcd⟩
          rw [modifyAt_cons cl cln [x, y] 0 (k :: q') _ x hx0]
          simp only [List.set_cons_zero]
          have hm0 : ([modifyAt x (k :: q') (fun m => eraseChild m (removedIndex a b)), y] :
              List PTree)[0]? = some (modifyAt x (k :: q') (fun m => eraseChild m (removedIndex a b))) := rfl
          rw [remove_kink_cons cl cln _ 0 k q' _ hm0, hrk]
          refine ⟨_, rfl, ?_, ?_, ?_⟩
          · simp only [Option.map_some, List.set_cons_zero]
            rw [binB_pair, Bool.and_eq_true]
            exact ⟨hbd, hby⟩
          · simp only [Option.map_some, List.set_cons_zero]
            intro s hs
            rw [labels_pair] at hs
            rw [labels_pair]
            rcases List.mem_append.mp hs with h1 | h2
            · exact List.mem_append_left _ (hld s h1)
            · exact List.mem_append_right _ h2
          · simp only [Option.map_some, List.set_cons_zero]
            rw [countLeaves_pair, countLeaves_pair]
            omega
        | 1 =>
          have hx1 : ([x, y] : List PTree)[1]? = some y := rfl
          have hny : nodeAt? y (k :: q') = some n :=
            nodeAt?_child _ 1 (k :: q') n y hn hx1
          rcases ih k y n a b hby hny hch with ⟨d', hrk, hbd, hld, hcd⟩
          rw [modifyAt_cons cl cln [x, y] 1 (k :: q') _ y hx1]
          simp only [List.set_cons_succ, List.set_cons_zero]
          have hm1 : ([x, modifyAt y (k :: q') (fun m => eraseChild m (removedIndex a b))] :
              List PTree)[1]? = some (modifyAt y (k :: q') (fun m => eraseChild m (removedIndex a b))) := rfl
          rw [remove_kink_cons cl cln _ 1 k q' _ hm1, hrk]
          refine ⟨_, rfl, ?_, ?_, ?_⟩
          · simp only [Option.map_some, List.set_cons_succ, List.set_cons_zero]
            rw [binB_pair, Bool.and_eq_true]
            exact ⟨hbx, hbd⟩
          · simp only [Option.map_some, List.set_cons_succ, List.set_cons_zero]
            intro s hs
            rw [labels_pair] at hs
            rw [labels_pair]
            rcases List.mem_append.mp hs with h1 | h2
            · exact List.mem_append_left _ h1
            · exact List.mem_append_right _ (hld s h2)
          · simp only [Option.map_some, List.set_cons_succ, List.set_cons_zero]
            rw [countLeaves_pair, countLeaves_pair]
            omega
        | (k' + 2) =>
          rw [nodeAt?_cons] at hn
          have : ([x, y] : List PTree)[k' + 2]? = none := rfl
          simp only [PTree.children, this] at hn
          cases hn

theorem children_mk (l : String) (ln : Int) (cs : List PTree) :
    (PTree.mk l ln cs).children = cs := rfl

theorem label_mk (l : String) (ln : Int) (cs : List PTree) :
    (PTree.mk l ln cs).label = l := rfl

theorem length_mk (l : String) (ln : Int) (cs : List PTree) :
    (PTree.mk l ln cs).length = ln := rfl

theorem moStep_eq (t : PTree) (p : TPath) (n a b : PTree)
    (hn : nodeAt? t p = some n) (hch : n.children = [a, b]) :
    moStep t p =
      match remove_kink (modifyAt t p (fun m => eraseChild m (removedIndex a b))) p with
      | some t'' => .ok t''
      | none => .error .indexError := by
  unfold moStep
  rw [hn]
  simp only [hch]

theorem nodeAt?_root_child (t : PTree) (j : Nat) (n : PTree)
    (h : nodeAt? t [j] = some n) : t.children[j]? = some n := by
  rw [nodeAt?_cons] at h
  cases hc : t.children[j]? with
  | none => rw [hc] at h; cases h
  | some c =>
    rw [hc] at h
    simp only [Option.some_bind, nodeAt?, Option.some_inj] at h
    rw [h]

theorem moStepTop (t : PTree) (p : TPath) (n a b : PTree)
    (hv : validLoopB t = true)
    (hp : p ∈ (preorderPaths t).drop 1)
    (hn : nodeAt? t p = some n)
    (hch : n.children = [a, b]) :
    ∃ t', moStep t p = .ok t' ∧ validLoopB t' = true ∧
      countLeaves t' < countLeaves t := by
  rcases drop1_preorderPaths t p hp with ⟨j, q, cj, rfl, hcj, hq⟩
  rcases (validLoopB_iff t).mp hv with ⟨hall, hpair⟩
  have hbcj : binB cj = true := hall cj (List.getElem?_mem hcj)
  rw [moStep_eq t (j :: q) n a b hn hch]
  cases t with
  | mk l ln cs =>
    simp only [children_mk] at hcj hall hpair
    cases q with
    | nil =>
      have hncj : n = cj := by
        have := nodeAt?_root_child _ j n hn
        simp only [PTree.children] at this
        rw [this] at hcj
        exact Option.some_inj.mp hcj
      subst hncj
      rcases kink_child_facts n a b hch hbcj with ⟨surv, hsc, hbs, hls, hcs⟩
      rw [modifyAt_cons l ln cs j [] _ n hcj]
      simp only [modifyAt]
      have hks : (cs.set j (eraseChild n (removedIndex a b)))[j]? =
          some (eraseChild n (removedIndex a b)) :=
        list_getElem?_set_self cs j n _ hcj
      have hc0 : (eraseChild n (removedIndex a b)).children[0]? = some surv := by
        rw [hsc]; rfl
      rw [remove_kink_one l ln _ j _ surv hks hc0, set_eraseIdx_same]
      refine ⟨_, rfl, ?_, ?_⟩
      · rw [validLoopB_iff]
        constructor
        · intro e he
          simp only [children_mk] at he
          rcases List.mem_append.mp he with h1 | h2
          · exact hall e (mem_of_mem_eraseIdx' cs j e h1)
          · have he' : e = PTree.mk surv.label
                ((eraseChild n (removedIndex a b)).length + surv.length) surv.children := by
              simpa using h2
            subst he'
            have : binB (PTree.mk surv.label
                ((eraseChild n (removedIndex a b)).length + surv.length) surv.children) =
                binB surv := by
              apply binB_congr; rfl
            rw [this]; exact hbs
        · rw [children_mk]
          apply pairB_eraseAppend cs j n _ hcj _ hpair
          apply names_subset_of_labels_subset
          intro s hs
          have hmerge : get_front_labels (PTree.mk surv.label
              ((eraseChild n (removedIndex a b)).length + surv.length) surv.children) =
              get_front_labels surv := by
            apply get_front_labels_congr <;> rfl
          rw [hmerge] at hs
          exact hls s hs
      · have hcs_ne : cs ≠ [] := by
          intro hnil
          rw [hnil] at hcj
          simp at hcj
        rw [countLeaves_mk, countLeaves_mk]
        have h1 : (cs.eraseIdx j ++ [PTree.mk surv.label
            ((eraseChild n (removedIndex a b)).length + surv.length) surv.children]).isEmpty = false := by
          simp
        rw [h1]
        have h2 : cs.isEmpty = false := by
          cases cs with
          | nil => exact absurd rfl hcs_ne
          | cons u us => rfl
        rw [h2]
        simp only [if_neg Bool.false_ne_true, List.map_append, List.sum_append,
          List.map_cons, List.map_nil, List.sum_cons, List.sum_nil]
        have hsum := sum_map_eraseIdx cs j n countLeaves hcj
        have hmergec : countLeaves (PTree.mk surv.label
            ((eraseChild n (removedIndex a b)).length + surv.length) surv.children) =
            countLeaves surv := by
          unfold countLeaves
          congr 1
          apply get_front_labels_congr <;> rfl
        rw [hmergec]
        omega
    | cons k q' =>
      have hnq : nodeAt? cj (k :: q') = some n := by
        apply nodeAt?_child _ j (k :: q') n cj hn
        simpa [children_mk] using hcj
      rcases moStepCore q' k cj n a b hbcj hnq hch with ⟨d, hrk, hbd, hld, hcd⟩
      rw [modifyAt_cons l ln cs j (k :: q') _ cj hcj]
      have hms : (cs.set j (modifyAt cj (k :: q') (fun m => eraseChild m (removedIndex a b))))[j]? =
          some (modifyAt cj (k :: q') (fun m => eraseChild m (removedIndex a b))) :=
        list_getElem?_set_self cs j cj _ hcj
      rw [remove_kink_cons l ln _ j k q' _ hms, hrk]
      simp only [Option.map_some, List.set_set]
      refine ⟨_, rfl, ?_, ?_⟩
      · rw [validLoopB_iff]
        constructor
        · intro e he
          simp only [children_mk] at he
          rcases List.mem_or_eq_of_mem_set he with h1 | h2
          · exact hall e h1
          · subst h2; exact hbd
        · rw [children_mk]
          exact pairB_set cs j cj d hcj
            (names_subset_of_labels_subset d cj hld) hpair
      · have hcs_ne : cs.isEmpty = false := by
          cases cs with
          | nil => simp at hcj
          | cons u us => rfl
        rw [countLeaves_mk, countLeaves_mk]
        have hset_ne : (cs.set j d).isEmpty = false := by
          cases cs with
          | nil => simp at hcj
          | cons u us => cases j <;> rfl
        rw [hcs_ne, hset_ne]
        simp only [if_neg Bool.false_ne_true]
        have hsum := sum_map_set cs j cj d countLeaves hcj
        omega

theorem names_pair (l : String) (ln : Int) (u v : PTree) :
    get_front_names (.mk l ln [u, v]) = get_front_names u ++ get_front_names v := by
  unfold get_front_names
  rw [labels_pair, List.map_append]

theorem intersecting_node_of_dup (c : PTree) :
    binB c = true → ¬ (get_front_names c).Nodup →
    ∃ q n a b, nodeAt? c q = some n ∧ n.children = [a, b] ∧
      namesIntersect a b = true := by
  induction c using PTree.inductionOn with
  | _ l ln cs ih =>
    intro hb hdup
    rcases binB_shape (.mk l ln cs) hb with hnil | ⟨u, v, huv, hbu, hbv⟩
    · rw [children_mk] at hnil
      subst hnil
      rw [get_front_names_mk] at hdup
      simp at hdup
    · rw [children_mk] at huv
      subst huv
      by_cases hint : namesIntersect u v = true
      · exact ⟨[], .mk l ln [u, v], u, v, rfl, rfl, hint⟩
      · have hdisj : ∀ x ∈ get_front_names u, x ∉ get_front_names v := by
          intro x hxu hxv
          exact hint ((namesIntersect_iff u v).mpr ⟨x, hxu, hxv⟩)
        rw [names_pair] at hdup
        rw [List.nodup_append] at hdup
        push_neg at hdup
        by_cases hdu : (get_front_names u).Nodup
        · by_cases hdv : (get_front_names v).Nodup
          · exact absurd (hdup hdu hdv) (by
              intro hnodisj
              exact hnodisj hdisj)
          · rcases ih v (by simp) hbv hdv with ⟨q, n, a, b, hq, hch, hi⟩
            refine ⟨1 :: q, n, a, b, ?_, hch, hi⟩
            rw [nodeAt?_cons, children_mk]
            simpa using hq
        · rcases ih u (by simp) hbu hdu with ⟨q, n, a, b, hq, hch, hi⟩
          refine ⟨0 :: q, n, a, b, ?_, hch, hi⟩
          rw [nodeAt?_cons, children_mk]
          simpa using hq

theorem nodup_flatten_of_pairB : ∀ cs : List PTree, pairwiseDisjB cs = true →
    (∀ c ∈ cs, (get_front_names c).Nodup) →
    ((cs.map get_front_names).flatten).Nodup := by
  intro cs
  induction cs with
  | nil => intro _ _; simp
  | cons c cs ih =>
    intro hp hall
    rw [pairwiseDisjB_cons] at hp
    simp only [List.map_cons, List.flatten_cons]
    rw [List.nodup_append]
    refine ⟨hall c (List.mem_cons_self c cs), ih hp.2
      (fun d hd => hall d (List.mem_cons_of_mem c hd)), ?_⟩
    intro x hxc hxf
    rcases List.mem_flatten.mp hxf with ⟨s, hs, hxs⟩
    rcases List.mem_map.mp hs with ⟨d, hd, rfl⟩
    have : namesIntersect c d = true := (namesIntersect_iff c d).mpr ⟨x, hxc, hxs⟩
    rw [hp.1 d hd] at this
    cases this

theorem dup_root_child (t : PTree) (hv : validLoopB t = true)
    (hdup : ¬ (get_front_names t).Nodup) :
    ∃ (i : Nat) (c : PTree), t.children[i]? = some c ∧
      ¬ (get_front_names c).Nodup := by
  cases t with
  | mk l ln cs =>
    rcases (validLoopB_iff _).mp hv with ⟨hall, hpair⟩
    rw [children_mk] at hall hpair
    cases cs with
    | nil =>
      rw [get_front_names_mk] at hdup
      simp at hdup
    | cons c0 cs' =>
      rw [get_front_names_mk] at hdup
      simp only [List.isEmpty_cons, if_neg Bool.false_ne_true] at hdup
      by_cases hex : ∀ d ∈ c0 :: cs', (get_front_names d).Nodup
      · exact absurd (nodup_flatten_of_pairB (c0 :: cs') hpair hex) hdup
      · push_neg at hex
        rcases hex with ⟨d, hd, hdnd⟩
        rcases mem_getElem? (c0 :: cs') d hd with ⟨i, hi⟩
        exact ⟨i, d, by rw [children_mk]; exact hi, hdnd⟩

theorem scan_shapes (t : PTree) (hv : validLoopB t = true) :
    ∀ p ∈ (preorderPaths t).drop 1, ∀ n, nodeAt? t p = some n →
      n.children = [] ∨ ∃ a b, n.children = [a, b] := by
  intro p hp n hn
  rcases drop1_preorderPaths t p hp with ⟨i, q, c, rfl, hci, hq⟩
  rcases (validLoopB_iff t).mp hv with ⟨hall, _⟩
  have hbc : binB c = true := hall c (List.getElem?_mem hci)
  have hnc : nodeAt? c q = some n := nodeAt?_child t i q n c hn hci
  have hbn : binB n = true := binB_nodeAt c q n hbc hnc
  rcases binB_shape n hbn with h1 | ⟨a, b, hab, _, _⟩
  · exact Or.inl h1
  · exact Or.inr ⟨a, b, hab⟩

theorem moScanGo_finds (t : PTree) :
    ∀ ps : List TPath,
      (∀ p ∈ ps, ∀ n, nodeAt? t p = some n →
        n.children = [] ∨ ∃ a b, n.children = [a, b]) →
      (∃ p ∈ ps, ∃ n a b, nodeAt? t p = some n ∧ n.children = [a, b] ∧
        namesIntersect a b = true) →
      ∃ p' n' a' b', moScanGo t ps = .ok (some p') ∧ p' ∈ ps ∧
        nodeAt? t p' = some n' ∧ n'.children = [a', b'] ∧
        namesIntersect a' b' = true := by
  intro ps
  induction ps with
  | nil =>
    intro _ hex
    simp at hex
  | cons p ps ih =>
    intro hshape hex
    cases hnp : nodeAt? t p with
    | none =>
      have hex' : ∃ p' ∈ ps, ∃ n a b, nodeAt? t p' = some n ∧ n.children = [a, b] ∧
          namesIntersect a b = true := by
        rcases hex with ⟨p', hp', rest⟩
        rcases List.mem_cons.mp hp' with rfl | hmem
        · rcases rest with ⟨n, a, b, hn, _⟩
          rw [hnp] at hn; cases hn
        · exact ⟨p', hmem, rest⟩
      rcases ih (fun p' h' => hshape p' (List.mem_cons_of_mem p h')) hex' with
        ⟨p', n', a', b', hscan, hmem, h3, h4, h5⟩
      refine ⟨p', n', a', b', ?_, List.mem_cons_of_mem p hmem, h3, h4, h5⟩
      simp only [moScanGo, hnp]
      exact hscan
    | some n =>
      rcases hshape p (List.mem_cons_self p ps) n hnp with hch0 | ⟨a, b, hab⟩
      · have hex' : ∃ p' ∈ ps, ∃ n a b, nodeAt? t p' = some n ∧ n.children = [a, b] ∧
            namesIntersect a b = true := by
          rcases hex with ⟨p', hp', rest⟩
          rcases List.mem_cons.mp hp' with rfl | hmem
          · rcases rest with ⟨n2, a, b, hn2, hch2, _⟩
            rw [hnp] at hn2
            rw [Option.some_inj.mp hn2.symm] at hch2
            rw [hch0] at hch2
            cases hch2
          · exact ⟨p', hmem, rest⟩
        rcases ih (fun p' h' => hshape p' (List.mem_cons_of_mem p h')) hex' with
          ⟨p', n', a', b', hscan, hmem, h3, h4, h5⟩
        refine ⟨p', n', a', b', ?_, List.mem_cons_of_mem p hmem, h3, h4, h5⟩
        cases n with
        | mk nl nn ncs =>
          rw [children_mk] at hch0
          subst hch0
          simp only [moScanGo, hnp]
          exact hscan
      · by_cases hint : namesIntersect a b = true
        · refine ⟨p, n, a, b, ?_, List.mem_cons_self p ps, hnp, hab, hint⟩
          cases n with
          | mk nl nn ncs =>
            rw [children_mk] at hab
            subst hab
            simp [moScanGo, hnp, children_mk, hint]
        · have hex' : ∃ p' ∈ ps, ∃ n a b, nodeAt? t p' = some n ∧ n.children = [a, b] ∧
              namesIntersect a b = true := by
            rcases hex with ⟨p', hp', rest⟩
            rcases List.mem_cons.mp hp' with rfl | hmem
            · rcases rest with ⟨n2, a2, b2, hn2, hch2, hint2⟩
              rw [hnp] at hn2
              rw [Option.some_inj.mp hn2.symm] at hch2
              rw [hab] at hch2
              injection hch2 with e1 e2
              injection e2 with e2 e3
              subst e1; subst e2
              exact absurd hint2 hint
            · exact ⟨p', hmem, rest⟩
          rcases ih (fun p' h' => hshape p' (List.mem_cons_of_mem p h')) hex' with
            ⟨p', n', a', b', hscan, hmem, h3, h4, h5⟩
          refine ⟨p', n', a', b', ?_, List.mem_cons_of_mem p hmem, h3, h4, h5⟩
          cases n with
          | mk nl nn ncs =>
            rw [children_mk] at hab
            subst hab
            rw [Bool.not_eq_true] at hint
            simp only [moScanGo, hnp, children_mk, hint]
            simp only [Bool.false_eq_true, if_false]
            exact hscan

theorem moLoop_term : ∀ (fuel : Nat) (t : PTree), validLoopB t = true →
    countLeaves t ≤ fuel →
    ∃ t', moLoop fuel t = .ok t' ∧ (get_front_names t').Nodup := by
  intro fuel
  induction fuel with
  | zero =>
    intro t _ hle
    have := countLeaves_pos t
    omega
  | succ f ih =>
    intro t hv hle
    by_cases hnd : (get_front_names t).Nodup
    · refine ⟨t, ?_, hnd⟩
      unfold moLoop
      rw [if_pos hnd]
    · rcases dup_root_child t hv hnd with ⟨i, c, hci, hdc⟩
      have hbc : binB c = true := ((validLoopB_iff t).mp hv).1 c (List.getElem?_mem hci)
      rcases intersecting_node_of_dup c hbc hdc with ⟨q, n, a, b, hq, hch, hint⟩
      have hnp : nodeAt? t (i :: q) = some n := by
        rw [nodeAt?_cons, hci]
        simpa using hq
      have hmem : (i :: q) ∈ (preorderPaths t).drop 1 :=
        mem_drop1_preorderPaths t i q c hci (mem_preorderPaths_of_nodeAt? c q n hq)
      rcases moScanGo_finds t ((preorderPaths t).drop 1) (scan_shapes t hv)
        ⟨i :: q, hmem, n, a, b, hnp, hch, hint⟩ with
        ⟨p', n', a', b', hscan, hmem', hn', hch', hint'⟩
      rcases moStepTop t p' n' a' b' hv hmem' hn' hch' with ⟨t', hstep, hv', hlt⟩
      rcases ih t' hv' (by omega) with ⟨t'', hloop, hnd''⟩
      refine ⟨t'', ?_, hnd''⟩
      unfold moLoop
      rw [if_neg hnd]
      have hmoscan : moScan t = .ok (some p') := hscan
      rw [hmoscan]
      simp only []
      rw [hstep]
      simp only []
      exact hloop

theorem moLoop_ok_nodup : ∀ (fuel : Nat) (t t' : PTree),
    moLoop fuel t = .ok t' → (get_front_names t').Nodup := by
  intro fuel
  induction fuel with
  | zero => intro t t' h; simp [moLoop] at h
  | succ f ih =>
    intro t t' h
    unfold moLoop at h
    by_cases hnd : (get_front_names t).Nodup
    · rw [if_pos hnd] at h
      rw [Except.ok.injEq] at h
      exact h ▸ hnd
    · rw [if_neg hnd] at h
      cases hscan : moScan t with
      | error e => rw [hscan] at h; simp only [] at h; cases h
      | ok o =>
        rw [hscan] at h
        cases o with
        | none =>
          simp only [] at h
          exact ih t t' h
        | some p =>
          simp only [] at h
          cases hstep : moStep t p with
          | error e => rw [hstep] at h; simp only [] at h; cases h
          | ok t2 =>
            rw [hstep] at h
            simp only [] at h
            exact ih t2 t' h

theorem moScanGo_ne_valueError (t : PTree) :
    ∀ ps : List TPath, moScanGo t ps = .error MOErr.valueError → False := by
  intro ps
  induction ps with
  | nil => intro h; simp [moScanGo] at h
  | cons p ps ih =>
    intro h
    unfold moScanGo at h
    cases hnp : nodeAt? t p with
    | none =>
      rw [hnp] at h
      exact ih h
    | some n =>
      rw [hnp] at h
      cases n with
      | mk nl nn ncs =>
        cases ncs with
        | nil =>
          simp only [children_mk] at h
          exact ih h
        | cons c0 cs' =>
          cases cs' with
          | nil => simp only [children_mk] at h; cases h
          | cons c1 cs'' =>
            simp only [children_mk] at h
            by_cases hi : namesIntersect c0 c1 = true
            · rw [if_pos hi] at h; cases h
            · rw [if_neg hi] at h; exact ih h

theorem moStep_ne_valueError (t : PTree) (p : TPath) :
    moStep t p = .error MOErr.valueError → False := by
  intro h
  unfold moStep at h
  cases hnp : nodeAt? t p with
  | none => rw [hnp] at h; simp only [] at h; cases h
  | some n =>
    rw [hnp] at h
    cases n with
    | mk nl nn ncs =>
      cases ncs with
      | nil => simp only [children_mk] at h; cases h
      | cons c0 cs' =>
        cases cs' with
        | nil => simp only [children_mk] at h; cases h
        | cons c1 cs'' =>
          simp only [children_mk] at h
          cases hrk : remove_kink (modifyAt t p fun m =>
              eraseChild m (removedIndex c0 c1)) p with
          | none => rw [hrk] at h; simp only [] at h; cases h
          | some t2 => rw [hrk] at h; simp only [] at h; cases h

theorem moLoop_ne_valueError : ∀ (fuel : Nat) (t : PTree),
    moLoop fuel t = .error MOErr.valueError → False := by
  intro fuel
  induction fuel with
  | zero => intro t h; simp [moLoop] at h
  | succ f ih =>
    intro t h
    unfold moLoop at h
    by_cases hnd : (get_front_names t).Nodup
    · rw [if_pos hnd] at h; cases h
    · rw [if_neg hnd] at h
      cases hscan : moScan t with
      | error e =>
        rw [hscan] at h
        simp only [] at h
        rw [Except.error.injEq] at h
        subst h
        exact moScanGo_ne_valueError t _ hscan
      | ok o =>
        rw [hscan] at h
        cases o with
        | none =>
          simp only [] at h
          exact ih t h
        | some p =>
          simp only [] at h
          cases hstep : moStep t p with
          | error e =>
            rw [hstep] at h
            simp only [] at h
            rw [Except.error.injEq] at h
            subst h
            exact moStep_ne_valueError t p hstep
          | ok t2 =>
            rw [hstep] at h
            simp only [] at h
            exact ih t2 h

/-- C1 (amended): after a successful monophyletic-outgroup rerooting and
pruning, the write-versus-below-minimum decision of `main` compares the
unique-taxon count of the tree AFTER pruning against the minimum-taxa
threshold: the source reads `curroot` at line 601, but
`prune_paralogs_from_rerooted_homotree` mutates the rerooted tree in place
and returns the very same object, so `curroot` aliases the pruned `ortho`
tree.  The pruned result is written iff the post-pruning unique-taxon count
is ≥ the minimum. -/
theorem c1_write_decision_uses_pruned_count (fuel : Nat) (t : PTree)
    (outgroups : List String) (minimumTaxa : Nat) (ortho : PTree)
    (h : prune_paralogs_from_rerooted_homotree fuel t outgroups = .ok ortho) :
    moWriteDecision fuel t outgroups minimumTaxa =
      some (decide (minimumTaxa ≤ count_taxa ortho)) := by
  unfold moWriteDecision
  rw [h]

/-- C1 counterexample to the claim as stated: for the rerooted tree `tMO`
(unique-taxon count 4) with outgroup `O` and minimum 4, the claim predicts the
pruned result is written (4 ≥ 4 using the pre-pruning count), but the source
records it as below minimum (`some false`): pruning drops taxon `B`, and the
check reads the pruned tree. -/
theorem c1_counterexample : count_taxa tMO = 4 ∧ 4 ≤ count_taxa tMO ∧
    moWriteDecision 20 tMO ["O"] 4 = some false := by decide

theorem c1_witness :
    moWriteDecision 20 tMO ["O"] 4 = some (decide (4 ≤ count_taxa tMOresult)) :=
  c1_write_decision_uses_pruned_count 20 tMO ["O"] 4 tMOresult (by decide)

/-- C5: whenever `prune_paralogs_from_rerooted_homotree` returns (either the
1-to-1 early return or normal termination of the pruning loop), every taxon
name — in particular every ingroup taxon — occurs at most once among the tips
of the returned tree. -/
theorem c5_result_single_copy (fuel : Nat) (t : PTree) (outgroups : List String)
    (t' : PTree)
    (h : prune_paralogs_from_rerooted_homotree fuel t outgroups = .ok t') :
    ∀ name : String, (get_front_names t').count name ≤ 1 := by
  intro name
  have hnd : (get_front_names t').Nodup := by
    unfold prune_paralogs_from_rerooted_homotree at h
    by_cases hnd0 : (get_front_names t).Nodup
    · rw [if_pos hnd0] at h
      rw [Except.ok.injEq] at h
      exact h ▸ hnd0
    · rw [if_neg hnd0] at h
      cases hrp : rootPhase t outgroups with
      | error e => rw [hrp] at h; simp only [] at h; cases h
      | ok t1 =>
        rw [hrp] at h
        simp only [] at h
        exact moLoop_ok_nodup fuel t1 t' h
  exact List.nodup_iff_count_le_one.mp hnd name

theorem c5_witness :
    prune_paralogs_from_rerooted_homotree 20 tMO ["O"] = .ok tMOresult ∧
    (get_front_names tMOresult).count "A" ≤ 1 :=
  ⟨by decide, c5_result_single_copy 20 tMO ["O"] tMOresult (by decide) "A"⟩

/-- C8: for every valid rerooted homotree (nodes below the root are tips or
binary, and no taxon name spans two distinct root children), the iterative
duplicate-pruning `while` loop terminates within `countLeaves` iterations,
returning a tree with no duplicate taxon names. -/
theorem c8_pruning_loop_terminates (t : PTree) (hv : validLoopB t = true) :
    ∃ t', moLoop (countLeaves t) t = .ok t' ∧ (get_front_names t').Nodup :=
  moLoop_term (countLeaves t) t hv (le_refl (countLeaves t))

theorem c8_witness : validLoopB tValid = true ∧
    (∃ t', moLoop (countLeaves tValid) tValid = .ok t' ∧
      (get_front_names t').Nodup) :=
  ⟨by decide, c8_pruning_loop_terminates tValid (by decide)⟩

/-- C9 (amended): when `remove_kink` is called on the current root with
exactly two children, the reroot target is the second child if the first is a
tip and the first child otherwise; whenever at least one of the two children
is not a tip, the chosen target is not a tip.  (With BOTH children tips the
source would pick the second child, a tip — see the counterexample.) -/
theorem c9_reroot_target_choice (c0 c1 : PTree)
    (h : c0.istip = false ∨ c1.istip = false) :
    rerootChoice c0 c1 = (if c0.istip then c1 else c0) ∧
    (rerootChoice c0 c1).istip = false := by
  refine ⟨rfl, ?_⟩
  unfold rerootChoice
  cases hc0 : c0.istip with
  | true =>
    simp only [if_pos rfl]
    rcases h with h0 | h1
    · rw [hc0] at h0; cases h0
    · exact h1
  | false =>
    simp [hc0]

/-- C9 counterexample to the claim as stated: for a root whose two children
are both tips, `remove_kink` picks the SECOND CHILD — a tip — as the reroot
target, contradicting "the chosen reroot target is never a tip". -/
theorem c9_counterexample :
    tBothTips.children = [tipN "A.1" 1, tipN "B.2" 2] ∧
    rerootChoice (tipN "A.1" 1) (tipN "B.2" 2) = tipN "B.2" 2 ∧
    (tipN "B.2" 2).istip = true ∧
    remove_kink tBothTips [] = some (.mk "B.2" 2 [.mk "A.1" 3 []]) := by decide

theorem c9_witness :
    rerootChoice (PTree.mk "" 1 [tipN "A.1" 1, tipN "B.1" 1]) (tipN "C.1" 1) =
      PTree.mk "" 1 [tipN "A.1" 1, tipN "B.1" 1] ∧
    (rerootChoice (PTree.mk "" 1 [tipN "A.1" 1, tipN "B.1" 1]) (tipN "C.1" 1)).istip =
      false := by
  have h := c9_reroot_target_choice (PTree.mk "" 1 [tipN "A.1" 1, tipN "B.1" 1])
    (tipN "C.1" 1) (Or.inl (by decide))
  exact ⟨h.1.trans (by decide), h.2⟩

/-- C10: every smaller-clade comparison of the MO engine — the root-level
ingroup pair (`pairPrune`) and each rescanned sibling pair (`moStep`) —
removes the first-listed clade exactly when its unique-taxon set is not
strictly larger than the second's; the second is removed only when the first
is strictly larger, so exact ties always remove the earlier clade. -/
theorem c10_tie_removes_first (c0 c1 : PTree) :
    (removedIndex c0 c1 = 0 ↔ count_taxa c0 ≤ count_taxa c1) ∧
    (removedIndex c0 c1 = 1 ↔ count_taxa c1 < count_taxa c0) ∧
    (count_taxa c0 = count_taxa c1 → removedIndex c0 c1 = 0) ∧
    (∀ (t : PTree) (i j : Nat), pairPrune t i j c0 c1 =
      if namesIntersect c0 c1 then
        (if removedIndex c0 c1 = 1 then eraseChild t j else eraseChild t i)
      else t) ∧
    (∀ (t : PTree) (p : TPath) (n : PTree) (rest : List PTree),
      nodeAt? t p = some n → n.children = c0 :: c1 :: rest →
      moStep t p =
        match remove_kink (modifyAt t p
            (fun m => eraseChild m (removedIndex c0 c1))) p with
        | some t'' => .ok t''
        | none => .error MOErr.indexError) := by
  refine ⟨?_, ?_, ?_, ?_, ?_⟩
  · unfold removedIndex
    by_cases h : count_taxa c1 < count_taxa c0
    · rw [if_pos h]
      constructor
      · intro h1; cases h1
      · intro h1; omega
    · rw [if_neg h]
      constructor
      · intro _; omega
      · intro _; rfl
  · unfold removedIndex
    by_cases h : count_taxa c1 < count_taxa c0
    · rw [if_pos h]
      exact ⟨fun _ => h, fun _ => rfl⟩
    · rw [if_neg h]
      constructor
      · intro h1; cases h1
      · intro h1; exact absurd h1 h
  · intro he
    unfold removedIndex
    rw [if_neg (by omega)]
  · intro t i j
    rfl
  · intro t p n rest hn hch
    unfold moStep
    rw [hn]
    simp only [hch]

theorem c10_witness :
    removedIndex (PTree.mk "" 1 [tipN "A.1" 1, tipN "B.1" 1])
      (PTree.mk "" 1 [tipN "A.2" 1, tipN "C.1" 1]) = 0 ∧
    count_taxa (PTree.mk "" 1 [tipN "A.1" 1, tipN "B.1" 1]) =
      count_taxa (PTree.mk "" 1 [tipN "A.2" 1, tipN "C.1" 1]) :=
  ⟨(c10_tie_removes_first (PTree.mk "" 1 [tipN "A.1" 1, tipN "B.1" 1])
      (PTree.mk "" 1 [tipN "A.2" 1, tipN "C.1" 1])).2.2.1 (by decide),
    by decide⟩

/-- C4: for a rerooted tree with a trifurcating root and duplicate taxa,
`prune_paralogs_from_rerooted_homotree` raises the fatal
`ValueError('More than one clade with outgroup sequences!')` if and only if
more than one of the three root children contains outgroup tips; with at most
one outgroup-carrying child it proceeds without that error. -/
theorem c4_value_error_iff_two_outgroup_clades (fuel : Nat) (t : PTree)
    (outgroups : List String) (c0 c1 c2 : PTree)
    (hch : t.children = [c0, c1, c2])
    (hdup : ¬ (get_front_names t).Nodup) :
    (prune_paralogs_from_rerooted_homotree fuel t outgroups = .error MOErr.valueError ↔
      2 ≤ ([c0, c1, c2].countP
        (fun c => decide (0 < (get_front_outgroup_names c outgroups).length)))) := by
  unfold prune_paralogs_from_rerooted_homotree
  rw [if_neg hdup]
  by_cases h0 : (get_front_outgroup_names c0 outgroups).length = 0 <;>
    by_cases h1 : (get_front_outgroup_names c1 outgroups).length = 0 <;>
      by_cases h2 : (get_front_outgroup_names c2 outgroups).length = 0
  · have hrp : rootPhase t outgroups = .ok (pairPrune t 0 1 c0 c1) := by
      unfold rootPhase
      rw [hch]
      simp only []
      rw [if_pos ⟨h0, h1⟩]
    rw [hrp]
    simp only []
    refine iff_of_false (fun hl => moLoop_ne_valueError fuel _ hl) ?_
    simp only [List.length_eq_zero] at h0 h1 h2
    simp [List.countP_cons, List.countP_nil, h0, h1, h2, Nat.pos_iff_ne_zero]
  · have hrp : rootPhase t outgroups = .ok (pairPrune t 0 1 c0 c1) := by
      unfold rootPhase
      rw [hch]
      simp only []
      rw [if_pos ⟨h0, h1⟩]
    rw [hrp]
    simp only []
    refine iff_of_false (fun hl => moLoop_ne_valueError fuel _ hl) ?_
    simp only [List.length_eq_zero] at h0 h1 h2
    simp [List.countP_cons, List.countP_nil, h0, h1, h2, Nat.pos_iff_ne_zero]
  · have hrp : rootPhase t outgroups = .ok (pairPrune t 0 2 c0 c2) := by
      unfold rootPhase
      rw [hch]
      simp only []
      rw [if_neg (by tauto), if_neg (by tauto), if_pos ⟨h0, h2⟩]
    rw [hrp]
    simp only []
    refine iff_of_false (fun hl => moLoop_ne_valueError fuel _ hl) ?_
    simp only [List.length_eq_zero] at h0 h1 h2
    simp [List.countP_cons, List.countP_nil, h0, h1, h2, Nat.pos_iff_ne_zero]
  · have hrp : rootPhase t outgroups = .error MOErr.valueError := by
      unfold rootPhase
      rw [hch]
      simp only []
      rw [if_neg (by tauto), if_neg (by tauto), if_neg (by tauto)]
    rw [hrp]
    simp only []
    refine iff_of_true (by trivial) ?_
    simp only [List.length_eq_zero] at h0 h1 h2
    simp [List.countP_cons, List.countP_nil, h0, h1, h2, Nat.pos_iff_ne_zero]
  · have hrp : rootPhase t outgroups = .ok (pairPrune t 1 2 c1 c2) := by
      unfold rootPhase
      rw [hch]
      simp only []
      rw [if_neg (by tauto), if_pos ⟨h1, h2⟩]
    rw [hrp]
    simp only []
    refine iff_of_false (fun hl => moLoop_ne_valueError fuel _ hl) ?_
    simp only [List.length_eq_zero] at h0 h1 h2
    simp [List.countP_cons, List.countP_nil, h0, h1, h2, Nat.pos_iff_ne_zero]
  · have hrp : rootPhase t outgroups = .error MOErr.valueError := by
      unfold rootPhase
      rw [hch]
      simp only []
      rw [if_neg (by tauto), if_neg (by tauto), if_neg (by tauto)]
    rw [hrp]
    simp only []
    refine iff_of_true (by trivial) ?_
    simp only [List.length_eq_zero] at h0 h1 h2
    simp [List.countP_cons, List.countP_nil, h0, h1, h2, Nat.pos_iff_ne_zero]
  · have hrp : rootPhase t outgroups = .error MOErr.valueError := by
      unfold rootPhase
      rw [hch]
      simp only []
      rw [if_neg (by tauto), if_neg (by tauto), if_neg (by tauto)]
    rw [hrp]
    simp only []
    refine iff_of_true (by trivial) ?_
    simp only [List.length_eq_zero] at h0 h1 h2
    simp [List.countP_cons, List.countP_nil, h0, h1, h2, Nat.pos_iff_ne_zero]
  · have hrp : rootPhase t outgroups = .error MOErr.valueError := by
      unfold rootPhase
      rw [hch]
      simp only []
      rw [if_neg (by tauto), if_neg (by tauto), if_neg (by tauto)]
    rw [hrp]
    simp only []
    refine iff_of_true (by trivial) ?_
    simp only [List.length_eq_zero] at h0 h1 h2
    simp [List.countP_cons, List.countP_nil, h0, h1, h2, Nat.pos_iff_ne_zero]

theorem c4_witness :
    ¬ (get_front_names tMulti).Nodup ∧
    2 ≤ ([tipN "O.1" 1, tipN "O.2" 1,
      PTree.mk "" 1 [tipN "A.1" 1, tipN "A.2" 1]].countP
        (fun c => decide (0 < (get_front_outgroup_names c ["O"]).length))) ∧
    prune_paralogs_from_rerooted_homotree 20 tMulti ["O"] =
      .error MOErr.valueError := by
  refine ⟨by decide, by decide, ?_⟩
  exact (c4_value_error_iff_two_outgroup_clades 20 tMulti ["O"] (tipN "O.1" 1)
    (tipN "O.2" 1) (PTree.mk "" 1 [tipN "A.1" 1, tipN "A.2" 1])
    (by decide) (by decide)).mpr (by decide)

/-- C2 (amended): `cut_long_internal_branches` takes no minimum-taxa
parameter — its source signature is `(curroot, internal_branch_length_cutoff,
logger)` and the keep/discard threshold is the hard-coded constant 4.  Each
child subtree of a split long branch (`keepChild`) and the final residue tree
(`finishResidue`) is kept as an output subtree iff its unique-taxon count is
at least 4, and otherwise added to the discard map under its serialization
with a reason string. -/
theorem c2_threshold_hardcoded_four (child residue : PTree) (subs : List PTree)
    (disc : List (String × String)) (reason : String) :
    ((4 ≤ count_taxa child →
        keepChild child (subs, disc) reason = (subs ++ [child], disc)) ∧
      (count_taxa child < 4 →
        keepChild child (subs, disc) reason =
          (subs, insertKV disc (newickStr child) reason))) ∧
    ((4 ≤ count_taxa residue →
        finishResidue residue subs disc = (subs ++ [residue], disc)) ∧
      (count_taxa residue < 4 →
        finishResidue residue subs disc =
          (subs, insertKV disc (newickStr residue)
            "After cutting, remaining tree has fewer than 4 taxa"))) := by
  refine ⟨⟨?_, ?_⟩, ?_, ?_⟩
  · intro h
    unfold keepChild
    rw [if_pos h]
  · intro h
    unfold keepChild
    rw [if_neg (by omega)]
  · intro h
    unfold finishResidue
    rw [if_pos h]
  · intro h
    unfold finishResidue
    rw [if_neg (by omega)]

/-- C2 counterexample to the claim as stated: with a caller-supplied minimum
of 3, the claim predicts the 3-taxon child `cutChild1` of the split long
branch of `tCut` is kept (3 ≥ 3); the source discards it (hard-coded 4) and
keeps only the 4-taxon child. -/
theorem c2_counterexample :
    (cut_long_internal_branches 10 tCut 1).toOption.map Prod.fst =
      some [cutChild0] ∧
    3 ≤ count_taxa cutChild1 ∧ cutChild1 ∉ [cutChild0] := by decide

theorem c2_witness :
    keepChild cutChild1 ([], []) "r" =
      ([], insertKV [] (newickStr cutChild1) "r") :=
  (c2_threshold_hardcoded_four cutChild1 cutChild1 [] [] "r").1.2 (by decide)

/-- C7: `remove_kink` on a non-root node with exactly one child splices that
child into the kink's place under the kink's parent — the parent's child list
drops the kink and gains the child (appended at the end, as `remove_child`
then `add_child` does) — and the surviving child's length is exactly
`kink.length + child.length`. -/
theorem c7_remove_kink_length_conservation (q : TPath) :
    ∀ (t kink c par : PTree) (i : Nat),
    nodeAt? t (q ++ [i]) = some kink →
    kink.children = [c] →
    nodeAt? t q = some par →
    ∃ t', remove_kink t (q ++ [i]) = some t' ∧
      nodeAt? t' q = some (PTree.mk par.label par.length
        (par.children.eraseIdx i ++
          [PTree.mk c.label (kink.length + c.length) c.children])) := by
  induction q with
  | nil =>
    intro t kink c par i hk hone hpar
    simp only [nodeAt?, Option.some_inj] at hpar
    subst hpar
    cases t with
    | mk l ln cs =>
      have hcs : cs[i]? = some kink := by
        have := nodeAt?_root_child _ i kink hk
        simpa [children_mk] using this
      have hc0 : kink.children[0]? = some c := by
        rw [hone]
        rfl
      rw [List.nil_append]
      rw [remove_kink_one l ln cs i kink c hcs hc0]
      refine ⟨_, rfl, ?_⟩
      simp [nodeAt?, label_mk, length_mk, children_mk]
  | cons j q' ih =>
    intro t kink c par i hk hone hpar
    cases t with
    | mk l ln cs =>
      have hstep : nodeAt? (PTree.mk l ln cs) (j :: (q' ++ [i])) = some kink := by
        simpa using hk
      rw [nodeAt?_cons] at hstep hpar
      cases hcj : (PTree.mk l ln cs).children[j]? with
      | none =>
        rw [hcj] at hpar
        cases hpar
      | some cj =>
        rw [hcj] at hstep hpar
        simp only [Option.some_bind] at hstep hpar
        rcases ih cj kink c par i hstep hone hpar with ⟨cj', hrk', hnode'⟩
        simp only [children_mk] at hcj
        obtain ⟨k, rest, hkr⟩ : ∃ k rest, q' ++ [i] = k :: rest := by
          cases q' with
          | nil => exact ⟨i, [], rfl⟩
          | cons a as => exact ⟨a, as ++ [i], rfl⟩
        have hform : (j :: q') ++ [i] = j :: k :: rest := by
          simp [hkr]
        rw [hform]
        rw [remove_kink_cons l ln cs j k rest cj hcj, ← hkr, hrk']
        refine ⟨_, rfl, ?_⟩
        rw [nodeAt?_cons, children_mk, list_getElem?_set_self cs j cj cj' hcj]
        simpa using hnode'

theorem c7_witness :
    ∃ t', remove_kink tKink ([] ++ [0]) = some t' ∧
      nodeAt? t' [] = some (PTree.mk tKink.label tKink.length
        (tKink.children.eraseIdx 0 ++
          [PTree.mk (tipN "A.1" 3).label
            ((PTree.mk "X" 2 [tipN "A.1" 3]).length + (tipN "A.1" 3).length)
            (tipN "A.1" 3).children])) :=
  c7_remove_kink_length_conservation [] tKink (PTree.mk "X" 2 [tipN "A.1" 3])
    (tipN "A.1" 3) tKink 0 (by decide) (by decide) (by decide)

theorem kinkFreeBelowRootB_spec (t : PTree) (h : kinkFreeBelowRootB t = true) :
    ∀ p ∈ (preorderPaths t).drop 1, ∀ n, nodeAt? t p = some n →
      n.children.length ≠ 1 := by
  intro p hp n hn
  unfold kinkFreeBelowRootB at h
  rw [List.all_eq_true] at h
  have hpred := h p hp
  rw [hn] at hpred
  simp only [] at hpred
  simpa using hpred

theorem internalLengthsLeB_iff (t : PTree) (cutoff : Int) :
    internalLengthsLeB t cutoff = true ↔
      ∀ p ∈ (preorderPaths t).drop 1, ∀ n, nodeAt? t p = some n →
        n.children ≠ [] → n.length ≤ cutoff := by
  unfold internalLengthsLeB
  rw [List.all_eq_true]
  constructor
  · intro h p hp n hn hne
    have hpred := h p hp
    rw [hn] at hpred
    simp only [] at hpred
    cases hcs : n.children.isEmpty with
    | true =>
      exact absurd (List.isEmpty_iff.mp hcs) hne
    | false =>
      rw [hcs] at hpred
      simpa using hpred
  · intro h p hp
    cases hn : nodeAt? t p with
    | none => simp
    | some n =>
      simp only []
      cases hcs : n.children.isEmpty with
      | true => simp
      | false =>
        simp only [Bool.false_eq_true, if_false, decide_eq_true_eq]
        exact h p hp n hn (fun hne => by rw [hne] at hcs; cases hcs)

theorem cutScanGo_char (t : PTree) (cutoff : Int) :
    ∀ ps : List TPath,
      (∀ p ∈ ps, ∀ n, nodeAt? t p = some n → n.children.length ≠ 1) →
      ((cutScanGo t cutoff ps = none ↔
        ∀ p ∈ ps, ∀ n, nodeAt? t p = some n → n.children ≠ [] →
          n.length ≤ cutoff) ∧
       (∀ p', cutScanGo t cutoff ps = some (.longAt p') →
        ∃ n, nodeAt? t p' = some n ∧ cutoff < n.length)) := by
  intro ps
  induction ps with
  | nil =>
    intro _
    constructor
    · simp [cutScanGo]
    · intro p' h
      simp [cutScanGo] at h
  | cons p ps ih =>
    intro hkink
    have ihtail := ih (fun p' h' => hkink p' (List.mem_cons_of_mem p h'))
    cases hnp : nodeAt? t p with
    | none =>
      have hred : cutScanGo t cutoff (p :: ps) = cutScanGo t cutoff ps := by
        simp only [cutScanGo, hnp]
      rw [hred]
      constructor
      · rw [ihtail.1]
        constructor
        · intro h p' hp' n hn hne
          rcases List.mem_cons.mp hp' with rfl | hmem
          · rw [hnp] at hn; cases hn
          · exact h p' hmem n hn hne
        · intro h p' hp' n hn hne
          exact h p' (List.mem_cons_of_mem p hp') n hn hne
      · exact ihtail.2
    | some n =>
      cases n with
      | mk nl nn ncs =>
        cases ncs with
        | nil =>
          have hred : cutScanGo t cutoff (p :: ps) = cutScanGo t cutoff ps := by
            simp only [cutScanGo, hnp, children_mk]
          rw [hred]
          constructor
          · rw [ihtail.1]
            constructor
            · intro h p' hp' n' hn' hne
              rcases List.mem_cons.mp hp' with rfl | hmem
              · rw [hnp] at hn'
                have hn2 := Option.some_inj.mp hn'
                subst hn2
                simp [children_mk] at hne
              · exact h p' hmem n' hn' hne
            · intro h p' hp' n' hn' hne
              exact h p' (List.mem_cons_of_mem p hp') n' hn' hne
          · exact ihtail.2
        | cons c0 cs' =>
          cases cs' with
          | nil =>
            exfalso
            have := hkink p (List.mem_cons_self p ps) _ hnp
            simp [children_mk] at this
          | cons c1 cs'' =>
            by_cases hlen : cutoff < nn
            · have hred : cutScanGo t cutoff (p :: ps) = some (.longAt p) := by
                simp only [cutScanGo, hnp, children_mk, length_mk]
                rw [if_pos hlen]
              rw [hred]
              constructor
              · refine iff_of_false (by simp) ?_
                intro h
                have := h p (List.mem_cons_self p ps) _ hnp
                  (by rw [children_mk]; simp)
                rw [length_mk] at this
                omega
              · intro p' heq
                rw [Option.some_inj] at heq
                injection heq with heq
                subst heq
                exact ⟨_, hnp, by rw [length_mk]; exact hlen⟩
            · have hred : cutScanGo t cutoff (p :: ps) = cutScanGo t cutoff ps := by
                simp only [cutScanGo, hnp, children_mk, length_mk]
                rw [if_neg hlen]
              rw [hred]
              constructor
              · rw [ihtail.1]
                constructor
                · intro h p' hp' n' hn' hne
                  rcases List.mem_cons.mp hp' with rfl | hmem
                  · rw [hnp] at hn'
                    rw [Option.some_inj.mp hn'.symm, length_mk]
                    omega
                  · exact h p' hmem n' hn' hne
                · intro h p' hp' n' hn' hne
                  exact h p' (List.mem_cons_of_mem p hp') n' hn' hne
              · exact ihtail.2

/-- C6: in a kink-free tree, a full scan of `cut_long_internal_branches`
selects no branch to cut iff every internal non-root branch length is at most
the cutoff (so a branch of length exactly the cutoff is never cut), and any
branch it does select to cut has length strictly greater than the cutoff. -/
theorem c6_cut_iff_strictly_over (t : PTree) (cutoff : Int)
    (hkf : kinkFreeBelowRootB t = true) :
    (cutScan t cutoff = none ↔ internalLengthsLeB t cutoff = true) ∧
    (∀ p, cutScan t cutoff = some (.longAt p) →
      ∃ n, nodeAt? t p = some n ∧ cutoff < n.length) := by
  have hchar := cutScanGo_char t cutoff ((preorderPaths t).drop 1)
    (kinkFreeBelowRootB_spec t hkf)
  refine ⟨?_, hchar.2⟩
  rw [internalLengthsLeB_iff]
  exact hchar.1

theorem c6_witness :
    kinkFreeBelowRootB tTie = true ∧ cutScan tTie 1 = none ∧
    cutScan tLong 1 = some (.longAt [0]) ∧
    (∃ n, nodeAt? tLong [0] = some n ∧ (1 : Int) < n.length) := by
  refine ⟨by decide, ?_, by decide, ?_⟩
  · exact (c6_cut_iff_strictly_over tTie 1 (by decide)).1.mpr (by decide)
  · exact (c6_cut_iff_strictly_over tLong 1 (by decide)).2 [0] (by decide)

theorem ne_nil_iff_exists_mem {α : Type} (l : List α) : l ≠ [] ↔ ∃ x, x ∈ l := by
  cases l with
  | nil => simp
  | cons a as => simp [List.mem_cons]

theorem bool_eq_of_iff (x y : Bool) (h : x = true ↔ y = true) : x = y := by
  cases x <;> cases y <;> simp_all

theorem qualifiesB_iff (root n : PTree) (outgroups : List String) :
    qualifiesB root n outgroups = true ↔ qualifiesSpec root n outgroups := by
  unfold qualifiesB qualifiesSpec
  simp only [Bool.or_eq_true, Bool.and_eq_true, decide_eq_true_eq, and_assoc]
  have hfo0 : ((get_front_names n).countP (fun x => decide (x ∈ outgroups)) = 0) ↔
      ∀ x ∈ get_front_names n, x ∉ outgroups := by
    rw [List.countP_eq_zero]; simp
  have hfop : (0 < (get_front_names n).countP (fun x => decide (x ∈ outgroups))) ↔
      ∃ x ∈ get_front_names n, x ∈ outgroups := by
    rw [List.countP_pos_iff]; simp
  have hfi0 : ((get_front_names n).countP (fun x => ! decide (x ∈ outgroups)) = 0) ↔
      ∀ x ∈ get_front_names n, x ∈ outgroups := by
    rw [List.countP_eq_zero]; simp
  have hfip : (0 < (get_front_names n).countP (fun x => ! decide (x ∈ outgroups))) ↔
      ∃ x ∈ get_front_names n, x ∉ outgroups := by
    rw [List.countP_pos_iff]; simp
  have hbo0 : ((get_back_names n root).countP (fun x => decide (x ∈ outgroups)) = 0) ↔
      ∀ x ∈ get_back_names n root, x ∉ outgroups := by
    rw [List.countP_eq_zero]; simp
  have hbop : (0 < (get_back_names n root).countP (fun x => decide (x ∈ outgroups))) ↔
      ∃ x ∈ get_back_names n root, x ∈ outgroups := by
    rw [List.countP_pos_iff]; simp
  have hbi0 : ((get_back_names n root).countP (fun x => ! decide (x ∈ outgroups)) = 0) ↔
      ∀ x ∈ get_back_names n root, x ∈ outgroups := by
    rw [List.countP_eq_zero]; simp
  have hbip : (0 < (get_back_names n root).countP (fun x => ! decide (x ∈ outgroups))) ↔
      ∃ x ∈ get_back_names n root, x ∉ outgroups := by
    rw [List.countP_pos_iff]; simp
  rw [hfi0, hfop, hbip, hbo0, hfip, hfo0, hbi0, hbop]
  rw [ne_nil_iff_exists_mem, ne_nil_iff_exists_mem]
  constructor
  · rintro (⟨h1, h2, h3, h4⟩ | ⟨h1, h2, h3, h4⟩)
    · left
      rcases h2 with ⟨x, hx, _⟩
      rcases h3 with ⟨y, hy, hyo⟩
      exact ⟨⟨x, hx⟩, h1, ⟨y, hy⟩, fun z hz => by
        intro hzo
        have := h4 z hz
        exact this hzo⟩
    · right
      rcases h1 with ⟨x, hx, hxo⟩
      rcases h4 with ⟨y, hy, _⟩
      exact ⟨⟨x, hx⟩, fun z hz hzo => (h2 z hz) hzo, ⟨y, hy⟩, h3⟩
  · rintro (⟨⟨x, hx⟩, h2, ⟨y, hy⟩, h4⟩ | ⟨⟨x, hx⟩, h2, ⟨y, hy⟩, h4⟩)
    · left
      refine ⟨h2, ⟨x, hx, h2 x hx⟩, ?_, h4⟩
      by_cases hyo : y ∈ outgroups
      · exact absurd hyo (h4 y hy)
      · exact ⟨y, hy, hyo⟩
    · right
      refine ⟨⟨x, hx, h2 x hx⟩, h2, h4, ⟨y, hy, h4 y hy⟩⟩

theorem findCongr {α : Type} (l : List α) (p q : α → Bool)
    (h : ∀ x ∈ l, p x = q x) : l.find? p = l.find? q := by
  induction l with
  | nil => rfl
  | cons a as ih =>
    rw [List.find?_cons, List.find?_cons, h a (List.mem_cons_self a as)]
    cases q a with
    | true => rfl
    | false => exact ih (fun x hx => h x (List.mem_cons_of_mem a hx))

theorem nodeAt?_of_mem_preorderPaths (t : PTree) :
    ∀ p ∈ preorderPaths t, ∃ n, nodeAt? t p = some n := by
  induction t using PTree.inductionOn with
  | _ l ln cs ih =>
    intro p hp
    simp only [preorderPaths, List.mem_cons] at hp
    rcases hp with rfl | hp
    · exact ⟨_, rfl⟩
    · rcases mem_preorderPathsAux 0 cs p hp with ⟨i, q, c, rfl, hc, hq⟩
      rcases ih c (List.getElem?_mem hc) q hq with ⟨n, hn⟩
      refine ⟨n, ?_⟩
      rw [Nat.zero_add, nodeAt?_cons, children_mk, hc]
      simpa using hn

theorem nodeAt?_dropLast (p : TPath) :
    ∀ (t n : PTree), nodeAt? t p = some n →
      ∃ m, nodeAt? t p.dropLast = some m := by
  induction p with
  | nil =>
    intro t n _
    exact ⟨t, rfl⟩
  | cons i q ih =>
    intro t n hn
    rw [nodeAt?_cons] at hn
    cases hc : t.children[i]? with
    | none => rw [hc] at hn; cases hn
    | some c =>
      rw [hc] at hn
      simp only [Option.some_bind] at hn
      cases q with
      | nil => exact ⟨t, rfl⟩
      | cons j q' =>
        rcases ih c n hn with ⟨m, hm⟩
        refine ⟨m, ?_⟩
        rw [List.dropLast_cons_of_ne_nil (by simp), nodeAt?_cons, hc]
        simpa using hm

theorem rerootAux_isSome (p : TPath) :
    ∀ (above c n : PTree), nodeAt? c p = some n →
      ∃ r, rerootAux above c p = some r := by
  induction p with
  | nil =>
    intro above c n _
    exact ⟨_, rfl⟩
  | cons i q ih =>
    intro above c n hn
    rw [nodeAt?_cons] at hn
    cases hc : c.children[i]? with
    | none => rw [hc] at hn; cases hn
    | some g =>
      rw [hc] at hn
      simp only [Option.some_bind] at hn
      rcases ih (.mk c.label g.length (c.children.eraseIdx i ++ [above])) g n hn with ⟨r, hr⟩
      refine ⟨r, ?_⟩
      unfold rerootAux
      rw [hc]
      exact hr

theorem rerootAux_unfold_cons (above c : PTree) (i : Nat) (q : TPath) :
    rerootAux above c (i :: q) =
      match c.children[i]? with
      | some g => rerootAux (.mk c.label g.length (c.children.eraseIdx i ++ [above])) g q
      | none => none := rfl

theorem reroot_isSome (t : PTree) (p : TPath) (n : PTree)
    (h : nodeAt? t p = some n) : ∃ r, reroot t p = some r := by
  cases p with
  | nil => exact ⟨t, rfl⟩
  | cons i q =>
    rw [nodeAt?_cons] at h
    cases hc : t.children[i]? with
    | none => rw [hc] at h; cases h
    | some c =>
      rw [hc] at h
      simp only [Option.some_bind] at h
      rcases rerootAux_isSome q (.mk t.label c.length (t.children.eraseIdx i)) c n h with
        ⟨r, hr⟩
      refine ⟨r, ?_⟩
      unfold reroot
      simp only []
      rw [hc]
      exact hr

theorem rwmo_multi_eq (t : PTree) (outgroups : List String)
    (hout : 2 ≤ ((get_front_labels t).filter
      (fun lab => decide (get_name lab ∈ outgroups))).length) :
    reroot_with_monophyletic_outgroups t outgroups =
      match findQualifyPath t outgroups with
      | some p => reroot t p.dropLast
      | none => none := by
  unfold reroot_with_monophyletic_outgroups
  cases hfil : (get_front_labels t).filter (fun lab => decide (get_name lab ∈ outgroups)) with
  | nil => rfl
  | cons a as =>
    cases as with
    | nil =>
      rw [hfil] at hout
      simp at hout
    | cons b bs => rfl

/-- C3: for a tree with two or more outgroup tips,
`reroot_with_monophyletic_outgroups` (i) selects the first non-root node in
pre-order traversal satisfying the spec-worded monophyly condition
(`qualifiesSpec`) — the code's count-based test agrees with it pointwise —
(ii) returns `none` exactly when no non-root node qualifies
(non-monophyletic outgroup), and (iii) on success reroots at the PARENT of
the selected node (the address with the last step dropped). -/
theorem c3_reroot_at_parent_of_first_qualifying (t : PTree)
    (outgroups : List String)
    (hout : 2 ≤ ((get_front_labels t).filter
      (fun lab => decide (get_name lab ∈ outgroups))).length) :
    (findQualifyPath t outgroups = ((preorderPaths t).drop 1).find?
      (fun p => match nodeAt? t p with
        | some n => decide (qualifiesSpec t n outgroups)
        | none => false)) ∧
    (reroot_with_monophyletic_outgroups t outgroups = none ↔
      ∀ p ∈ (preorderPaths t).drop 1, ∀ n, nodeAt? t p = some n →
        ¬ qualifiesSpec t n outgroups) ∧
    (∀ p, findQualifyPath t outgroups = some p →
      reroot_with_monophyletic_outgroups t outgroups = reroot t p.dropLast ∧
      ∃ r, reroot_with_monophyletic_outgroups t outgroups = some r) := by
  have hpredeq : ∀ p ∈ (preorderPaths t).drop 1,
      (fun p => match nodeAt? t p with
        | some n => qualifiesB t n outgroups
        | none => false) p =
      (fun p => match nodeAt? t p with
        | some n => decide (qualifiesSpec t n outgroups)
        | none => false) p := by
    intro p _
    cases hn : nodeAt? t p with
    | none => simp only [hn]
    | some n =>
      simp only [hn]
      refine bool_eq_of_iff _ _ ?_
      rw [qualifiesB_iff]
      simp
  have hfind : findQualifyPath t outgroups = ((preorderPaths t).drop 1).find?
      (fun p => match nodeAt? t p with
        | some n => decide (qualifiesSpec t n outgroups)
        | none => false) := by
    unfold findQualifyPath
    exact findCongr _ _ _ hpredeq
  have hvalid : ∀ p0, findQualifyPath t outgroups = some p0 →
      ∃ r, reroot t p0.dropLast = some r := by
    intro p0 hfq
    unfold findQualifyPath at hfq
    have hmem := List.mem_of_find?_eq_some hfq
    have hmem' : p0 ∈ preorderPaths t := List.mem_of_mem_drop hmem
    rcases nodeAt?_of_mem_preorderPaths t p0 hmem' with ⟨n0, hn0⟩
    rcases nodeAt?_dropLast p0 t n0 hn0 with ⟨m, hm⟩
    exact reroot_isSome t p0.dropLast m hm
  refine ⟨hfind, ?_, ?_⟩
  · rw [rwmo_multi_eq t outgroups hout]
    constructor
    · intro hnone p hp n hn hq
      cases hfq : findQualifyPath t outgroups with
      | some p0 =>
        rw [hfq] at hnone
        simp only [] at hnone
        rcases hvalid p0 hfq with ⟨r, hr⟩
        rw [hr] at hnone
        cases hnone
      | none =>
        unfold findQualifyPath at hfq
        have hall := List.find?_eq_none.mp hfq p hp
        rw [hn] at hall
        simp only [] at hall
        exact hall ((qualifiesB_iff t n outgroups).mpr hq)
    · intro hnoq
      cases hfq : findQualifyPath t outgroups with
      | some p0 =>
        exfalso
        unfold findQualifyPath at hfq
        have hmem := List.mem_of_find?_eq_some hfq
        have hpred := List.find?_some hfq
        cases hn : nodeAt? t p0 with
        | none =>
          rw [hn] at hpred
          simp only [] at hpred
          cases hpred
        | some n =>
          rw [hn] at hpred
          simp only [] at hpred
          exact hnoq p0 hmem n hn ((qualifiesB_iff t n outgroups).mp hpred)
      | none => rfl
  · intro p hfq
    refine ⟨?_, ?_⟩
    · rw [rwmo_multi_eq t outgroups hout, hfq]
    · rw [rwmo_multi_eq t outgroups hout, hfq]
      simp only []
      exact hvalid p hfq

theorem c3_witness :
    2 ≤ ((get_front_labels tReroot).filter
      (fun lab => decide (get_name lab ∈ ["O"]))).length ∧
    findQualifyPath tReroot ["O"] = some [0] ∧
    reroot_with_monophyletic_outgroups tReroot ["O"] =
      reroot tReroot ([0] : TPath).dropLast :=
  ⟨by decide, by decide,
    ((c3_reroot_at_parent_of_first_qualifying tReroot ["O"] (by decide)).2.2
      [0] (by decide)).1⟩
